import Mathlib

/-!
Verification development for the file-backed journal core (package `journal`,
file `file_journal.go`-style source in `src/unnamed/part_000`).

The embedding is a shallow, executable model of the source:

* machine strings and byte slices are `List Char` / `List Nat`;
* the filesystem is an association list from path to contents, together with a
  schedule of injected I/O faults (an environment may fail any fallible
  syscall; an empty schedule means every syscall succeeds);
* the per-journal doubly linked chunk dequeue (`first` = newest, `last` =
  oldest, `head.next` = older neighbour, `head.prev` = newer neighbour) is a
  `List FileJournalChunk` in newest-first order; pointer identity of heap
  nodes is modelled by a per-chunk `id` drawn from a fresh counter;
* the `int32` refcounts are `Int` (the source panics if a decrement goes
  negative; panics are modelled by `Option.none` results);
* listener maps are empty throughout (no claim concerns listeners; an empty
  map makes every notification loop a no-op, exactly as in the source).
-/

namespace Journal

abbrev Name := List Char
abbrev Bytes := List Nat

/-- Modelled from the spec: the path codec and the chunk role type
(`JournalFileType` with constants `Head` and `Rest`) are declared in a source
file of this repository that is not part of `src/` (only their call sites are
in `src/unnamed/part_000`).  The spec (section 4.1) requires a pure codec in
which `Head` and `Rest` encodings are distinguishable, the `t_suffix`
(timestamp + nonce segment) is stable across rename, and `decode` recovers
key, role, t_suffix, timestamp and unique id, or fails on malformed names. -/
inductive JournalFileType where
  | Head : JournalFileType
  | Rest : JournalFileType
deriving DecidableEq, Repr

open JournalFileType

/-- Modelled from the spec: the single segment in which the `Head` and `Rest`
encodings differ (section 6: they differ in exactly one segment). -/
def roleChar : JournalFileType → Char
  | Head => 'b'
  | Rest => 'q'

/-- Modelled from the spec: an opaque order-preserving numeral used inside the
`t_suffix` segment (the spec treats the encoding as opaque; a unary numeral is
the simplest decodable choice). -/
def unary (n : Nat) : List Char := List.replicate n 'x'

/-- Modelled from the spec: the `t_suffix` segment encoding timestamp and
nonce; it is stable across the Head-to-Rest rename. -/
def tSuffixOf (t nonce : Nat) : List Char := unary t ++ ['.'] ++ unary nonce

/-- Result record of the path codec, mirroring the fields the source reads
from `BuildJournalPath` / `DecodeJournalPath` results. -/
structure JournalPathInfo where
  VariablePortion : Name
  TypeOf : JournalFileType
  TSuffix : Name
  UniqueId : Name
  Key : Name
  Timestamp : Int
deriving DecidableEq, Repr

/-- Modelled from the spec: `BuildJournalPathWithTSuffix(key, type, tSuffix)`
produces the variable portion of a filename from a key, a role and an
existing `t_suffix` (used by the roll-over rename, which must change only the
role segment). -/
def BuildJournalPathWithTSuffix (key : Name) (r : JournalFileType) (ts : Name) : Name :=
  key ++ ['.', roleChar r, '.'] ++ ts

/-- Modelled from the spec: `BuildJournalPath(key, type, time, nonce)` encodes
a fresh chunk filename variable portion. -/
def BuildJournalPath (key : Name) (r : JournalFileType) (t nonce : Nat) : JournalPathInfo :=
  let ts := tSuffixOf t nonce
  { VariablePortion := BuildJournalPathWithTSuffix key r ts
    TypeOf := r
    TSuffix := ts
    UniqueId := BuildJournalPathWithTSuffix key r ts
    Key := key
    Timestamp := (t : Int) }

/-- Count the leading run of the unary digit in a (reversed) name. -/
def takeUnaryRev : List Char → Nat × List Char
  | [] => (0, [])
  | c :: rest =>
      if c = 'x' then
        let p := takeUnaryRev rest
        (p.1 + 1, p.2)
      else (0, c :: rest)

/-- Modelled from the spec: `DecodeJournalPath(variablePortion)` parses the
variable portion back into key, role, t_suffix, timestamp and unique id, or
fails (`none`) on names that do not match the codec's shape. -/
def DecodeJournalPath (vp : Name) : Option JournalPathInfo :=
  let p1 := takeUnaryRev vp.reverse
  match p1.2 with
  | '.' :: r2 =>
      let p2 := takeUnaryRev r2
      match p2.2 with
      | '.' :: rc :: '.' :: keyRev =>
          let role? : Option JournalFileType :=
            if rc = 'b' then some Head else if rc = 'q' then some Rest else none
          match role? with
          | none => none
          | some r =>
              some { VariablePortion := vp
                     TypeOf := r
                     TSuffix := tSuffixOf p2.1 p1.1
                     UniqueId := vp
                     Key := keyRev.reverse
                     Timestamp := (p2.1 : Int) }
      | _ => none
  | _ => none

theorem takeUnaryRev_replicate (k : Nat) (l : List Char)
    (h : l.head? ≠ some 'x') :
    takeUnaryRev (List.replicate k 'x' ++ l) = (k, l) := by
  induction k with
  | zero =>
      simp only [List.replicate, List.nil_append]
      cases l with
      | nil => rfl
      | cons c cs =>
          simp only [List.head?, ne_eq, Option.some.injEq] at h
          simp [takeUnaryRev, h]
  | succ n ih =>
      simp only [List.replicate, List.cons_append]
      simp [takeUnaryRev, ih]

theorem takeUnaryRev_replicate' (k : Nat) (c : Char) (l : List Char)
    (h : c ≠ 'x') :
    takeUnaryRev (List.replicate k 'x' ++ c :: l) = (k, c :: l) := by
  apply takeUnaryRev_replicate
  simp [h]

/-- The modelled codec round-trips: decoding an encoded variable portion
recovers the key, role, t_suffix and timestamp exactly. -/
theorem decode_encode (key : Name) (r : JournalFileType) (t nonce : Nat) :
    DecodeJournalPath (BuildJournalPath key r t nonce).VariablePortion =
      some (BuildJournalPath key r t nonce) := by
  have hb : roleChar r ≠ 'x' := by cases r <;> decide
  unfold DecodeJournalPath BuildJournalPath BuildJournalPathWithTSuffix tSuffixOf unary
  simp only [List.reverse_append, List.reverse_cons, List.reverse_replicate,
    List.append_assoc, List.reverse_nil, List.nil_append, List.cons_append]
  rw [takeUnaryRev_replicate' nonce '.' _ (by decide)]
  simp only []
  rw [takeUnaryRev_replicate' t '.' _ (by decide)]
  cases r <;> simp [roleChar, tSuffixOf, unary, BuildJournalPathWithTSuffix]

/-! ## Filesystem model

An association list from full path to file contents, plus a schedule of
injected I/O faults: every fallible syscall first pops the schedule, and a
popped `true` makes that syscall return an error without touching the files.
An empty schedule (`[]`) models an environment in which no syscall fails. -/

structure Disk where
  files : List (Name × Bytes)
  faults : List Bool
deriving DecidableEq, Repr

def emptyDisk : Disk := ⟨[], []⟩

def popFault : Disk → Bool × Disk
  | ⟨fs, b :: r⟩ => (b, ⟨fs, r⟩)
  | ⟨fs, []⟩ => (false, ⟨fs, []⟩)

def fsGet : List (Name × Bytes) → Name → Option Bytes
  | [], _ => none
  | e :: r, p => if e.1 = p then some e.2 else fsGet r p

def fsSet : List (Name × Bytes) → Name → Bytes → List (Name × Bytes)
  | [], _, _ => []
  | e :: r, p, v => if e.1 = p then (p, v) :: r else e :: fsSet r p v

def fsRemove : List (Name × Bytes) → Name → List (Name × Bytes)
  | [], _ => []
  | e :: r, p => if e.1 = p then r else e :: fsRemove r p

/-- `os.OpenFile(path, O_WRONLY|O_APPEND|O_CREATE|O_EXCL, mode)`: fails if the
path already exists, otherwise creates an empty file. -/
def diskCreateExcl (d : Disk) (p : Name) : Option String × Disk :=
  let f := popFault d
  if f.1 then (some "open error", f.2)
  else
    match fsGet f.2.files p with
    | some _ => (some "file exists", f.2)
    | none => (none, { f.2 with files := f.2.files ++ [(p, [])] })

/-- `os.Remove(path)`: fails if the path does not exist. -/
def diskRemove (d : Disk) (p : Name) : Option String × Disk :=
  let f := popFault d
  if f.1 then (some "remove error", f.2)
  else
    match fsGet f.2.files p with
    | none => (some "no such file", f.2)
    | some _ => (none, { f.2 with files := fsRemove f.2.files p })

/-- `os.Rename(src, dst)`: fails if `src` does not exist; replaces any
existing `dst` (POSIX overwrite semantics); keeps the entry in place. -/
def diskRename (d : Disk) (src dst : Name) : Option String × Disk :=
  let f := popFault d
  if f.1 then (some "rename error", f.2)
  else
    match fsGet f.2.files src with
    | none => (some "no such file", f.2)
    | some v =>
        let cleaned := if src = dst then f.2.files else fsRemove f.2.files dst
        (none, { f.2 with files :=
          (fsSet cleaned src v).map (fun e => if e.1 = src then (dst, e.2) else e) })

/-- Append through an open writer (`file.Write(data)`): a fault models both an
I/O error and a short write (the source surfaces either as an error). -/
def diskAppend (d : Disk) (p : Name) (data : Bytes) : Option String × Disk :=
  let f := popFault d
  if f.1 then (some "write error", f.2)
  else
    match fsGet f.2.files p with
    | none => (some "write error", f.2)
    | some old => (none, { f.2 with files := fsSet f.2.files p (old ++ data) })

/-! ## Chunks and journals -/

/-- `FileJournalChunk`: one on-disk file in a journal's history.  The `id`
field models heap-pointer identity of the Go node (fresh ids come from an
allocation counter); `ftype` is the source's `Type` field. -/
structure FileJournalChunk where
  id : Nat
  Path : Name
  ftype : JournalFileType
  TSuffix : Name
  Timestamp : Int
  UniqueId : Name
  refcount : Int
deriving DecidableEq, Repr

/-- `FileJournal`: the chunk dequeue is kept newest-first (`chunks.head?` is
the source's `chunks.first`, `chunks.getLast?` is `chunks.last`); `writer` is
the id of the chunk the open append handle writes to, `none` when the
source's `writer` is nil. -/
structure FileJournal where
  key : Name
  chunks : List FileJournalChunk
  writer : Option Nat
  position : Int
  nextId : Nat
deriving DecidableEq, Repr

/-- The journal-group configuration consulted by write / roll-over / scan
(`pathPrefix`, `pathSuffix`, `maxSize` in the source). -/
structure GroupConfig where
  pathPfx : Name
  pathSfx : Name
  maxSize : Int
deriving DecidableEq, Repr

def freshJournal (k : Name) : FileJournal :=
  { key := k, chunks := [], writer := none, position := 0, nextId := 0 }

def findChunk (l : List FileJournalChunk) (cid : Nat) : Option FileJournalChunk :=
  l.find? (fun c => c.id = cid)

def addRef (l : List FileJournalChunk) (cid : Nat) : List FileJournalChunk :=
  l.map (fun c => if c.id = cid then { c with refcount := c.refcount + 1 } else c)

/-- Split the chunk list at the (first) chunk with the given id:
`l = newerPart ++ c :: olderPart`. -/
def splitAtId (l : List FileJournalChunk) (cid : Nat) :
    Option (List FileJournalChunk × FileJournalChunk × List FileJournalChunk) :=
  match l with
  | [] => none
  | c :: rest =>
      if c.id = cid then some ([], c, rest)
      else
        match splitAtId rest cid with
        | none => none
        | some (a, x, b) => some (c :: a, x, b)

/-! ## Cascading reference-count deletion (`FileJournal.deleteRef`)

The source decrements `chunk.refcount`; on reaching zero it first recurses on
`chunk.head.prev` (the **newer** neighbour), undoing the decrement and
returning the error if the recursion fails; then removes the chunk's file
(undoing on error) and unlinks the chunk; a negative refcount panics.

`deleteRefRev c restRev d` runs `deleteRef` on `c` where `restRev` lists the
chunks newer than `c`, nearest first; it returns the updated segment in the
same orientation (`c` and the surviving newer chunks, oldest first).  `none`
models the source panic. -/

structure DelRes where
  seg : List FileJournalChunk
  disk : Disk
  err : Option String
  destroyed : Bool
deriving DecidableEq, Repr

def deleteRefRev : FileJournalChunk → List FileJournalChunk → Disk → Option DelRes
  | c, restRev, d =>
    let rc := c.refcount - 1
    if rc < 0 then none
    else if rc = 0 then
      match restRev with
      | [] =>
          match diskRemove d c.Path with
          | (some e, d') => some ⟨[c], d', some e, false⟩
          | (none, d') => some ⟨[], d', none, true⟩
      | dn :: rest =>
          match deleteRefRev dn rest d with
          | none => none
          | some r =>
              match r.err with
              | some e => some ⟨c :: r.seg, r.disk, some e, false⟩
              | none =>
                  match diskRemove r.disk c.Path with
                  | (some e, d') => some ⟨c :: r.seg, d', some e, false⟩
                  | (none, d') => some ⟨r.seg, d', none, true⟩
    else some ⟨{ c with refcount := rc } :: restRev, d, none, false⟩

/-- `FileJournal.deleteRef` lifted to the whole chunk list.  Returns
`(error?, journal, disk, destroyed)`; `none` models the refcount-negative
panic (and, as a model artifact, a call on a chunk id that is no longer
linked, which no verified execution performs since a live handle keeps its
chunk's refcount positive). -/
def deleteRef (j : FileJournal) (d : Disk) (cid : Nat) :
    Option (Option String × FileJournal × Disk × Bool) :=
  match splitAtId j.chunks cid with
  | none => none
  | some (a, c, b) =>
      match deleteRefRev c a.reverse d with
      | none => none
      | some r => some (r.err, { j with chunks := r.seg.reverse ++ b }, r.disk, r.destroyed)

/-! ## Chunk handles (`FileJournalChunkWrapper`) -/

/-- A handle: atomic chunk slot (`none` after dispose) plus the
ownership-taken flag. -/
structure FileJournalChunkWrapper where
  chunk : Option Nat
  ownershipTaken : Bool
deriving DecidableEq, Repr

/-- `FileJournal.newChunkWrapper`: bumps the chunk's refcount and hands out a
fresh wrapper. -/
def newChunkWrapper (j : FileJournal) (cid : Nat) : FileJournalChunkWrapper × FileJournal :=
  (⟨some cid, false⟩, { j with chunks := addRef j.chunks cid })

/-- `FileJournalChunkWrapper.GetReader`: after dispose the slot is nil and the
documented error is returned; otherwise the chunk's file is opened read-only
(modelled as returning its contents). -/
def wrapperGetReader (w : FileJournalChunkWrapper) (j : FileJournal) (d : Disk) :
    Except String Bytes :=
  match w.chunk with
  | none => Except.error ("already disposed")
  | some cid =>
      match findChunk j.chunks cid with
      | none => Except.error ("open error")
      | some c =>
          match fsGet d.files c.Path with
          | none => Except.error ("open error")
          | some v => Except.ok v

/-- `FileJournalChunkWrapper.GetNextChunk`: a fresh handle on
`chunk.head.prev`, the newer neighbour (nil slot or no newer neighbour give
nil). -/
def wrapperGetNextChunk (w : FileJournalChunkWrapper) (j : FileJournal) :
    Option FileJournalChunkWrapper × FileJournal :=
  match w.chunk with
  | none => (none, j)
  | some cid =>
      match splitAtId j.chunks cid with
      | none => (none, j)
      | some (a, _, _) =>
          match a.getLast? with
          | none => (none, j)
          | some nb =>
              let p := newChunkWrapper j nb.id
              (some p.1, p.2)

/-- `FileJournalChunkWrapper.TakeOwnership`: first successful flip returns
true and immediately releases the handle's refcount via `deleteRef` (whose
error result the source discards). -/
def wrapperTakeOwnership (w : FileJournalChunkWrapper) (j : FileJournal) (d : Disk) :
    Option (Bool × FileJournalChunkWrapper × FileJournal × Disk) :=
  match w.chunk with
  | none => some (false, w, j, d)
  | some cid =>
      if w.ownershipTaken then some (false, w, j, d)
      else
        match deleteRef j d cid with
        | none => none
        | some (_, j', d', _) => some (true, { w with ownershipTaken := true }, j', d')

/-- `FileJournalChunkWrapper.Dispose`: swaps the chunk slot to nil (once
only), then `deleteRef`s the chunk.  If that destroyed the chunk, ownership
had been taken and the chunk had no older neighbour, the refcount of the node
reached through the destroyed chunk's stale newer-pointer is bumped; after
the cascade's unlinks that stale pointer designates exactly the new oldest
chunk (`chunks.last`), which is how it is modelled here. -/
def wrapperDispose (w : FileJournalChunkWrapper) (j : FileJournal) (d : Disk) :
    Option (Option String × FileJournalChunkWrapper × FileJournal × Disk) :=
  match w.chunk with
  | none => some (some "already disposed", w, j, d)
  | some cid =>
      match deleteRef j d cid with
      | none => none
      | some (some e, j', d', _) => some (some e, { w with chunk := none }, j', d')
      | some (none, j', d', destroyed) =>
          if destroyed ∧ w.ownershipTaken ∧ ((j.chunks.getLast?).map (·.id) = some cid) then
            match j'.chunks.getLast? with
            | some lc =>
                some (none, { w with chunk := none },
                  { j' with chunks := addRef j'.chunks lc.id }, d')
            | none => some (none, { w with chunk := none }, j', d')
          else some (none, { w with chunk := none }, j', d')

/-- `FileJournal.GetTailChunk`: a fresh handle on the oldest chunk, nil if the
list is empty. -/
def getTailChunk (j : FileJournal) : Option FileJournalChunkWrapper × FileJournal :=
  match j.chunks.getLast? with
  | none => (none, j)
  | some lc =>
      let p := newChunkWrapper j lc.id
      (some p.1, p.2)

/-- `FileJournal.Purge`: decrement-ref the oldest chunk (initiating the
cascade), then re-read the oldest and restore its list-anchor refcount; an
error from `deleteRef` returns early, skipping the restore. -/
def fjPurge (j : FileJournal) (d : Disk) : Option (Option String × FileJournal × Disk) :=
  match j.chunks.getLast? with
  | none => some (none, j, d)
  | some lc =>
      match deleteRef j d lc.id with
      | none => none
      | some (some e, j', d', _) => some (some e, j', d')
      | some (none, j', d', _) =>
          match j'.chunks.getLast? with
          | none => some (none, j', d')
          | some lc' => some (none, { j' with chunks := addRef j'.chunks lc'.id }, d')

/-! ## Write and roll-over -/

/-- The clock and nonce values an invocation of `newChunk` obtains from the
group's external collaborators (`group.timeGetter()` and
`group.rand.Int63n(0xfff)`). -/
structure Env where
  now : Nat
  nonce : Nat
deriving DecidableEq, Repr

/-- `FileJournal.finalizeChunk`: rename the chunk's file to its Rest-encoded
name (same `t_suffix`), update role and path, notify flush listeners (no-op:
no listeners are registered in any modelled run). -/
def finalizeChunk (cfg : GroupConfig) (j : FileJournal) (d : Disk) (cid : Nat) :
    Option String × FileJournal × Disk :=
  match findChunk j.chunks cid with
  | none => (some "model: chunk not found", j, d)
  | some ch =>
      let vp := BuildJournalPathWithTSuffix j.key JournalFileType.Rest ch.TSuffix
      let newPath := cfg.pathPfx ++ vp ++ cfg.pathSfx
      match diskRename d ch.Path newPath with
      | (some e, d') => (some e, j, d')
      | (none, d') =>
          (none,
           { j with chunks := j.chunks.map (fun c =>
               if c.id = cid then { c with ftype := JournalFileType.Rest, Path := newPath }
               else c) },
           d')

/-- `FileJournal.newChunk` (journal mutex held): encode a fresh Head name,
exclusive-create its file, close the prior writer (modelled as always
succeeding), link the new chunk at the newest end with refcount 2 (1 at birth
plus 1 for the writer), finalize the prior head and release its writer
refcount, install the writer at position 0.  On a failure after the create,
the new file is removed (that removal's own error is discarded by the source)
and the error is returned — the new chunk stays linked, exactly as in the
source.  The source does not assign `Timestamp` here (zero value).  Returns
`(error?, journal, disk, new chunk id?)`; `none` models a panic inside the
nested `deleteRef`. -/
def newChunk (cfg : GroupConfig) (env : Env) (j : FileJournal) (d : Disk) :
    Option (Option String × FileJournal × Disk × Option Nat) :=
  let info := BuildJournalPath j.key JournalFileType.Head env.now env.nonce
  let cid := j.nextId
  let p := cfg.pathPfx ++ info.VariablePortion ++ cfg.pathSfx
  let chunk : FileJournalChunk :=
    { id := cid, Path := p, ftype := JournalFileType.Head, TSuffix := info.TSuffix,
      Timestamp := 0, UniqueId := info.UniqueId, refcount := 2 }
  match diskCreateExcl d p with
  | (some e, d') => some (some e, j, d', none)
  | (none, d') =>
      let oldHead? := j.chunks.head?
      let j1 : FileJournal := { j with chunks := chunk :: j.chunks, nextId := cid + 1 }
      match oldHead? with
      | none => some (none, { j1 with writer := some cid, position := 0 }, d', some cid)
      | some oh =>
          match finalizeChunk cfg j1 d' oh.id with
          | (some e, j2, d2) =>
              let r := diskRemove d2 p
              some (some e, j2, r.2, none)
          | (none, j2, d2) =>
              match deleteRef j2 d2 oh.id with
              | none => none
              | some (some e, j3, d3, _) =>
                  let r := diskRemove d3 p
                  some (some e, j3, r.2, none)
              | some (none, j3, d3, _) =>
                  some (none, { j3 with writer := some cid, position := 0 }, d3, some cid)

/-- `FileJournal.Write`: create a chunk if there is no writer and no chunk;
roll over when `maxSize - position < len(data)`; then write through the
writer and advance `position`.  When the writer is nil but the chunk list is
non-empty, the source dereferences the nil writer — modelled as `none`
(runtime panic).  Returns `(error?, journal, disk)`. -/
def fjWrite (cfg : GroupConfig) (env : Env) (j : FileJournal) (d : Disk) (data : Bytes) :
    Option (Option String × FileJournal × Disk) :=
  let step1 : Option (Option String × FileJournal × Disk) :=
    match j.writer with
    | none =>
        if j.chunks.head? = none then
          match newChunk cfg env j d with
          | none => none
          | some (some e, j', d', _) => some (some e, j', d')
          | some (none, j', d', _) => some (none, j', d')
        else some (none, j, d)
    | some _ =>
        if cfg.maxSize - j.position < (data.length : Int) then
          match newChunk cfg env j d with
          | none => none
          | some (some e, j', d', _) => some (some e, j', d')
          | some (none, j', d', _) => some (none, j', d')
        else some (none, j, d)
  match step1 with
  | none => none
  | some (some e, j', d') => some (some e, j', d')
  | some (none, j', d') =>
      match j'.writer with
      | none => none
      | some wid =>
          match findChunk j'.chunks wid with
          | none => none
          | some ch =>
              match diskAppend d' ch.Path data with
              | (some e, d1) => some (some e, j', d1)
              | (none, d1) =>
                  some (none, { j' with position := j'.position + (data.length : Int) }, d1)

/-- `FileJournal.Dispose`: close the writer (close errors cannot arise in the
pure model) and clear it; chunks are left on disk. -/
def fjDispose (j : FileJournal) : Option String × FileJournal :=
  (none, { j with writer := none })

/-! ## Startup: sort, validation, scan, group construction -/

/-- The merge step of `sortChunksByTimestamp`: the source picks the right
element exactly when `lhs.Timestamp < rhs.Timestamp`, producing a descending
(newest-first) order and preferring the left run on ties. -/
def mergeDesc : List FileJournalChunk → List FileJournalChunk → List FileJournalChunk
  | [], ys => ys
  | xs, [] => xs
  | x :: xs, y :: ys =>
      if x.Timestamp < y.Timestamp then y :: mergeDesc (x :: xs) ys
      else x :: mergeDesc xs (y :: ys)
termination_by xs ys => xs.length + ys.length

/-- One pass of the bottom-up merge sort: merge adjacent runs of size `k`.
(The source never runs a pass with `k = 0`; the guard makes the recursion
well-founded.) -/
def mergePassGo (k : Nat) (l : List FileJournalChunk) : List FileJournalChunk :=
  if k = 0 then l
  else
    match l with
    | [] => []
    | x :: xs =>
        mergeDesc ((x :: xs).take k) (((x :: xs).drop k).take k) ++
          mergePassGo k (((x :: xs).drop k).drop k)
termination_by l.length
decreasing_by
  simp only [List.drop_drop, List.length_drop, List.length_cons]
  omega

/-- The outer loop of `sortChunksByTimestamp`: run a pass with run size `k`;
the source's `first` flag is true after a pass exactly when one merge consumed
the whole list, i.e. when the length is at most `2 * k`, in which case the
pass result is installed and the loop breaks; otherwise `k` doubles.  The
fuel (`length + 1`) is an upper bound on the number of passes, proved never to
run out. -/
def sortGo : Nat → Nat → List FileJournalChunk → List FileJournalChunk
  | 0, _, l => l
  | fuel + 1, k, l =>
      let l' := mergePassGo k l
      if l.length ≤ 2 * k then l' else sortGo fuel (2 * k) l'

def sortChunksByTimestamp (l : List FileJournalChunk) : List FileJournalChunk :=
  match l with
  | [] => []
  | _ => sortGo (l.length + 1) 1 l

/-- The head-finding loop of `validateChunks`: errors on a second `Head`. -/
def findChunkHead : List FileJournalChunk → Option FileJournalChunk →
    Except String (Option FileJournalChunk)
  | [], acc => Except.ok acc
  | c :: rest, acc =>
      if c.ftype = JournalFileType.Head then
        match acc with
        | some _ => Except.error ("multiple chunk heads found")
        | none => findChunkHead rest (some c)
      else findChunkHead rest acc

/-- `validateChunks`: the source compares the found head pointer with
`chunks.first` (both nil compares equal); pointer identity is the `id`
field. -/
def validateChunks (l : List FileJournalChunk) : Except String Unit :=
  match findChunkHead l none with
  | Except.error e => Except.error e
  | Except.ok h =>
      if h.map (·.id) = (l.head?).map (·.id) then Except.ok ()
      else Except.error ("chunk head does not have the newest timestamp")

/-- `path.Split`: split a path after the last slash into directory and
basename. -/
def pathSplit (p : Name) : Name × Name :=
  match p with
  | [] => ([], [])
  | c :: rest =>
      let r := pathSplit rest
      if r.1 = [] ∧ ¬ rest.contains '/' ∧ c ≠ '/' then ([], c :: rest)
      else if c = '/' ∧ ¬ rest.contains '/' then (['/'], rest)
      else (c :: r.1, r.2)

/-- `strings.HasSuffix`. -/
def hasSfx (s sfx : Name) : Bool := decide (sfx.isSuffixOf s)

/-- Accumulator of the directory scan: the `key → journal` map (insertion
ordered), the id allocator, and the number of warnings logged. -/
structure ScanAcc where
  journals : List (Name × FileJournal)
  nextId : Nat
  warnings : Nat
deriving DecidableEq, Repr

def scanLookup (js : List (Name × FileJournal)) (k : Name) : Option FileJournal :=
  match js with
  | [] => none
  | e :: r => if e.1 = k then some e.2 else scanLookup r k

def scanStore (js : List (Name × FileJournal)) (k : Name) (j : FileJournal) :
    List (Name × FileJournal) :=
  match js with
  | [] => [(k, j)]
  | e :: r => if e.1 = k then (k, j) :: r else e :: scanStore r k j

/-- One directory entry of `scanJournals`: skip entries without the suffix;
slice out the variable portion with Go semantics — `file[low:high]` with
`low = len(basename)`, `high = len(file) - len(suffix)` panics (`none`) when
`low > high`, which the source never guards against; decode failures log a
warning and skip; otherwise the chunk is appended at the oldest end of its
key's proto-journal with refcount 1. -/
def scanOne (pfx sfx bn : Name) (acc : ScanAcc) (file : Name) : Option ScanAcc :=
  if ¬ hasSfx file sfx then some acc
  else
    let high := file.length - sfx.length
    if bn.length > high then none
    else
      let vp := (file.take high).drop bn.length
      match DecodeJournalPath vp with
      | none => some { acc with warnings := acc.warnings + 1 }
      | some info =>
          let proto :=
            match scanLookup acc.journals info.Key with
            | some jp => jp
            | none => freshJournal info.Key
          let chunk : FileJournalChunk :=
            { id := acc.nextId, Path := pfx ++ info.VariablePortion ++ sfx,
              ftype := info.TypeOf, TSuffix := info.TSuffix,
              Timestamp := info.Timestamp, UniqueId := info.UniqueId, refcount := 1 }
          some { journals := scanStore acc.journals info.Key
                   { proto with chunks := proto.chunks ++ [chunk] }
                 nextId := acc.nextId + 1
                 warnings := acc.warnings }

def scanFold (pfx sfx bn : Name) : ScanAcc → List Name → Option ScanAcc
  | acc, [] => some acc
  | acc, f :: r =>
      match scanOne pfx sfx bn acc f with
      | none => none
      | some acc' => scanFold pfx sfx bn acc' r

def sortAndValidate : List (Name × FileJournal) →
    Except String (List (Name × FileJournal))
  | [] => Except.ok []
  | (k, j) :: r =>
      let j' := { j with chunks := sortChunksByTimestamp j.chunks }
      match validateChunks j'.chunks with
      | Except.error e => Except.error e
      | Except.ok _ =>
          match sortAndValidate r with
          | Except.error e => Except.error e
          | Except.ok r' => Except.ok ((k, j') :: r')

/-- `scanJournals`: read the directory entries (passed in explicitly, in the
order the OS happens to return them), assemble proto-journals, then sort each
by timestamp and validate.  `none` models the slice-bounds panic of
`scanOne`. -/
def scanJournals (pfx sfx : Name) (entries : List Name) :
    Option (Except String (List (Name × FileJournal))) :=
  let bn := (pathSplit pfx).2
  match scanFold pfx sfx bn ⟨[], 0, 0⟩ entries with
  | none => none
  | some acc => some (sortAndValidate acc.journals)

/-- The per-journal writer installation of
`FileJournalGroupFactory.GetJournalGroup`: open the newest chunk for append
(no create — the file must exist), seek to the end for the position, bump the
newest chunk's refcount for the writer.  Failure disposes the already-opened
journals and aborts.  `none` models the nil dereference on an empty recovered
journal (unreachable: the scanner only creates a journal when it adds a
chunk). -/
def installWriters (d : Disk) : List (Name × FileJournal) →
    Option (Except String (List (Name × FileJournal) × Disk))
  | [] => some (Except.ok ([], d))
  | (k, j) :: r =>
      match j.chunks with
      | [] => none
      | c :: rest =>
          let f := popFault d
          if f.1 then some (Except.error "open error")
          else
            match fsGet f.2.files c.Path with
            | none => some (Except.error "open error")
            | some v =>
                let j' : FileJournal :=
                  { j with chunks := { c with refcount := c.refcount + 1 } :: rest,
                           writer := some c.id, position := (v.length : Int) }
                match installWriters f.2 r with
                | none => none
                | some (Except.error e) => some (Except.error e)
                | some (Except.ok (r', d')) => some (Except.ok ((k, j') :: r', d'))

/-- The fresh-binding path of `GetJournalGroup` after the prefix and suffix
are fixed: scan the directory, then install a writer on each recovered
journal. -/
def getJournalGroupScan (cfg : GroupConfig) (entries : List Name) (d : Disk) :
    Option (Except String (List (Name × FileJournal) × Disk)) :=
  match scanJournals cfg.pathPfx cfg.pathSfx entries with
  | none => none
  | some (Except.error e) => some (Except.error e)
  | some (Except.ok js) => installWriters d js

/-- `FileJournalGroup.GetFileJournal` on the recovered map: the existing
journal, or a fresh one for an unseen key. -/
def getFileJournal (js : List (Name × FileJournal)) (k : Name) : FileJournal :=
  match scanLookup js k with
  | some j => j
  | none => freshJournal k

/-- Concatenate the contents of a journal's chunks in oldest-to-newest order
(reading each chunk's file from disk); `none` if any chunk's file is
missing. -/
def concatChunks (j : FileJournal) (d : Disk) : Option Bytes :=
  (j.chunks.reverse.mapM (fun c => fsGet d.files c.Path)).map List.flatten

/-- Run a sequence of `write(bytes)` calls (each with the clock and nonce its
roll-over, if any, would consume), stopping at the first error. -/
def runWrites (cfg : GroupConfig) : List (Env × Bytes) → FileJournal → Disk →
    Option (Option String × FileJournal × Disk)
  | [], j, d => some (none, j, d)
  | (env, data) :: r, j, d =>
      match fjWrite cfg env j d data with
      | none => none
      | some (some e, j', d') => some (some e, j', d')
      | some (none, j', d') => runWrites cfg r j' d'

/-! ## Helper lemmas -/

theorem fsGet_fsRemove_ne (fs : List (Name × Bytes)) (p q : Name) (h : q ≠ p) :
    fsGet (fsRemove fs p) q = fsGet fs q := by
  induction fs with
  | nil => rfl
  | cons e r ih =>
      by_cases he : e.1 = p
      · simp only [fsRemove, if_pos he, fsGet]
        rw [if_neg]
        intro hq
        exact h (hq ▸ he)
      · simp only [fsRemove, if_neg he, fsGet]
        by_cases hq : e.1 = q <;> simp [hq, ih]

theorem findChunk_append_left (s b : List FileJournalChunk) (cid : Nat)
    (h : ∀ x ∈ s, x.id ≠ cid) :
    findChunk (s ++ b) cid = findChunk b cid := by
  induction s with
  | nil => rfl
  | cons c r ih =>
      have hc : decide (c.id = cid) = false := by simpa using h c (by simp)
      simp only [List.cons_append, findChunk] at *
      simp only [List.find?_cons, hc]
      exact ih (fun x hx => h x (by simp [hx]))

theorem findChunk_cons_self (c : FileJournalChunk) (r : List FileJournalChunk) :
    findChunk (c :: r) c.id = some c := by
  simp [findChunk, List.find?]

theorem findChunk_of_nodup_mem (l : List FileJournalChunk) (c : FileJournalChunk)
    (hnd : (l.map (·.id)).Nodup) (hm : c ∈ l) :
    findChunk l c.id = some c := by
  induction l with
  | nil => cases hm
  | cons x r ih =>
      rcases List.mem_cons.mp hm with hm' | hm'
      · subst hm'
        exact findChunk_cons_self c r
      · simp only [List.map_cons, List.nodup_cons] at hnd
        have hx : decide (x.id = c.id) = false := by
          simp only [decide_eq_false_iff_not]
          intro he
          exact hnd.1 (he ▸ List.mem_map_of_mem (·.id) hm')
        simp only [findChunk]
        simp only [List.find?_cons, hx]
        exact ih hnd.2 hm'

theorem findChunk_eq_none (l : List FileJournalChunk) (cid : Nat)
    (h : ∀ x ∈ l, x.id ≠ cid) : findChunk l cid = none := by
  induction l with
  | nil => rfl
  | cons x r ih =>
      have hx : decide (x.id = cid) = false := by simpa using h x (by simp)
      simp only [findChunk]
      simp only [List.find?_cons, hx]
      exact ih (fun y hy => h y (by simp [hy]))

/-! ## Claim C9: a disposed handle refuses every operation -/

theorem dispose_ok_chunk_none (w w' : FileJournalChunkWrapper) (j j' : FileJournal)
    (d d' : Disk) (h : wrapperDispose w j d = some (none, w', j', d')) :
    w'.chunk = none := by
  unfold wrapperDispose at h
  cases hw : w.chunk with
  | none => simp [hw] at h
  | some cid =>
      rw [hw] at h
      dsimp only [] at h
      cases hdel : deleteRef j d cid with
      | none => rw [hdel] at h; cases h
      | some r =>
          obtain ⟨e?, j1, d1, dest⟩ := r
          cases e? with
          | some e =>
              rw [hdel] at h
              dsimp only [] at h
              simp at h
          | none =>
              rw [hdel] at h
              dsimp only [] at h
              split at h
              · cases hl : j1.chunks.getLast? with
                | some lc =>
                    rw [hl] at h
                    simp only [Option.some.injEq, Prod.mk.injEq] at h
                    rw [← h.2.1]
                | none =>
                    rw [hl] at h
                    simp only [Option.some.injEq, Prod.mk.injEq] at h
                    rw [← h.2.1]
              · simp only [Option.some.injEq, Prod.mk.injEq] at h
                rw [← h.2.1]

/-- Claim C9: after `Dispose` returns successfully on a chunk handle, no
operation on that handle succeeds: `GetReader` returns the "already disposed"
error, `GetNextChunk` returns nil, `TakeOwnership` returns false, and a second
`Dispose` returns an error — for every handle and every prior state. -/
theorem C9_disposed_handle_refuses_everything (w w' : FileJournalChunkWrapper)
    (j j' : FileJournal) (d d' : Disk)
    (h : wrapperDispose w j d = some (none, w', j', d')) :
    wrapperGetReader w' j' d' = Except.error ("already disposed") ∧
    wrapperGetNextChunk w' j' = (none, j') ∧
    wrapperTakeOwnership w' j' d' = some (false, w', j', d') ∧
    wrapperDispose w' j' d' = some (some "already disposed", w', j', d') := by
  have hc := dispose_ok_chunk_none w w' j j' d d' h
  refine ⟨?_, ?_, ?_, ?_⟩ <;> simp [wrapperGetReader, wrapperGetNextChunk,
    wrapperTakeOwnership, wrapperDispose, hc]

theorem C9_witness :
    wrapperDispose ⟨some 0, false⟩
        ⟨['k'], [⟨0, ['p'], JournalFileType.Rest, [], 0, [], 2⟩], none, 0, 1⟩
        ⟨[(['p'], [])], []⟩ =
      some (none, ⟨none, false⟩,
        ⟨['k'], [⟨0, ['p'], JournalFileType.Rest, [], 0, [], 1⟩], none, 0, 1⟩,
        ⟨[(['p'], [])], []⟩) ∧
    (wrapperGetReader ⟨none, false⟩
        ⟨['k'], [⟨0, ['p'], JournalFileType.Rest, [], 0, [], 1⟩], none, 0, 1⟩
        ⟨[(['p'], [])], []⟩ = Except.error ("already disposed") ∧
      wrapperGetNextChunk ⟨none, false⟩
        ⟨['k'], [⟨0, ['p'], JournalFileType.Rest, [], 0, [], 1⟩], none, 0, 1⟩ =
        (none, ⟨['k'], [⟨0, ['p'], JournalFileType.Rest, [], 0, [], 1⟩], none, 0, 1⟩) ∧
      wrapperTakeOwnership ⟨none, false⟩
        ⟨['k'], [⟨0, ['p'], JournalFileType.Rest, [], 0, [], 1⟩], none, 0, 1⟩
        ⟨[(['p'], [])], []⟩ =
        some (false, ⟨none, false⟩,
          ⟨['k'], [⟨0, ['p'], JournalFileType.Rest, [], 0, [], 1⟩], none, 0, 1⟩,
          ⟨[(['p'], [])], []⟩) ∧
      wrapperDispose ⟨none, false⟩
        ⟨['k'], [⟨0, ['p'], JournalFileType.Rest, [], 0, [], 1⟩], none, 0, 1⟩
        ⟨[(['p'], [])], []⟩ =
        some (some "already disposed", ⟨none, false⟩,
          ⟨['k'], [⟨0, ['p'], JournalFileType.Rest, [], 0, [], 1⟩], none, 0, 1⟩,
          ⟨[(['p'], [])], []⟩)) :=
  ⟨by decide, C9_disposed_handle_refuses_everything ⟨some 0, false⟩ ⟨none, false⟩
    ⟨['k'], [⟨0, ['p'], JournalFileType.Rest, [], 0, [], 2⟩], none, 0, 1⟩
    ⟨['k'], [⟨0, ['p'], JournalFileType.Rest, [], 0, [], 1⟩], none, 0, 1⟩
    ⟨[(['p'], [])], []⟩ ⟨[(['p'], [])], []⟩ (by decide)⟩

/-! ## Claim C10: write after dispose dereferences the nil writer -/

/-- Claim C10: after the journal's `Dispose` (which clears the writer but
keeps the chunk list), a `Write` call on a journal with a non-empty chunk
list takes neither chunk-creating branch and reaches
`journal.writer.Write(data)` with a nil writer: the modelled function returns
`none` (runtime panic), so it neither creates a chunk nor returns an error —
the function is not total on this reachable input. -/
theorem C10_write_after_dispose_panics (cfg : GroupConfig) (env : Env)
    (j : FileJournal) (d : Disk) (data : Bytes) (hne : j.chunks ≠ []) :
    (fjDispose j).2.writer = none ∧
    (fjDispose j).2.chunks = j.chunks ∧
    fjWrite cfg env (fjDispose j).2 d data = none := by
  refine ⟨rfl, rfl, ?_⟩
  unfold fjWrite fjDispose
  cases hc : j.chunks with
  | nil => exact absurd hc hne
  | cons c r => simp [hc]

theorem C10_witness :
    ((⟨['k'], [⟨0, ['p'], JournalFileType.Head, [], 0, [], 2⟩], some 0, 0, 1⟩ :
        FileJournal).chunks ≠ []) ∧
    ((fjDispose ⟨['k'], [⟨0, ['p'], JournalFileType.Head, [], 0, [], 2⟩], some 0, 0, 1⟩).2.writer
        = none ∧
      (fjDispose ⟨['k'], [⟨0, ['p'], JournalFileType.Head, [], 0, [], 2⟩], some 0, 0, 1⟩).2.chunks
        = [⟨0, ['p'], JournalFileType.Head, [], 0, [], 2⟩] ∧
      fjWrite ⟨['j'], ['l'], 8⟩ ⟨5, 0⟩
        (fjDispose ⟨['k'], [⟨0, ['p'], JournalFileType.Head, [], 0, [], 2⟩], some 0, 0, 1⟩).2
        ⟨[(['p'], [])], []⟩ [1, 2] = none) :=
  ⟨by decide, C10_write_after_dispose_panics _ _ _ _ _ (by decide)⟩

/-! ## Claim C5: the startup scanner on foreign files -/

/-- Claim C5 (demonstration of the divergence): with path prefix
`journal.` (basename `journal.`) and suffix `.log`, the foreign directory
entry `a.log` ends with the suffix but is shorter than basename + suffix, so
`scanJournals` evaluates the Go slice `file[8:1]`, which is out of bounds:
the scan panics (`none`) instead of skipping the file with a warning. -/
theorem C5_scan_panics_on_short_foreign_file :
    scanJournals ['j', 'o', 'u', 'r', 'n', 'a', 'l', '.'] ['.', 'l', 'o', 'g']
      [['a', '.', 'l', 'o', 'g']] = none := by rfl

/-! ## Claim C6: validateChunks -/

theorem findChunkHead_filter (l : List FileJournalChunk) (acc : Option FileJournalChunk) :
    findChunkHead l acc =
      match acc, l.filter (fun c => c.ftype = JournalFileType.Head) with
      | some a, [] => Except.ok (some a)
      | some _, _ :: _ => Except.error ("multiple chunk heads found")
      | none, [] => Except.ok none
      | none, [h] => Except.ok (some h)
      | none, _ :: _ :: _ => Except.error ("multiple chunk heads found") := by
  induction l generalizing acc with
  | nil => cases acc <;> rfl
  | cons c rest ih =>
      by_cases hc : c.ftype = JournalFileType.Head
      · simp only [findChunkHead, if_pos hc, List.filter_cons,
          decide_eq_true_eq, hc, if_pos]
        cases acc with
        | some a => simp
        | none =>
            rw [ih (some c)]
            rcases hfr : rest.filter (fun c => c.ftype = JournalFileType.Head) with
              _ | ⟨h1, t1⟩ <;> rw [hfr]
      · simp only [findChunkHead, if_neg hc, List.filter_cons]
        rw [if_neg (by simpa using hc)]
        exact ih acc

/-- Claim C6 counterexample: a non-empty list consisting only of `Rest`
chunks (which the claim says passes validation) is rejected by
`validateChunks` with the "chunk head does not have the newest timestamp"
error, because the source compares the nil head pointer against the non-nil
`chunks.first`. -/
theorem C6_counterexample :
    validateChunks [⟨0, ['p'], JournalFileType.Rest, [], 0, [], 1⟩] =
      Except.error ("chunk head does not have the newest timestamp") := by rfl

/-- Claim C6 (amended): `validateChunks` succeeds exactly on the empty list
and on lists whose newest (first) chunk is the unique `Head`; in particular a
non-empty all-`Rest` list fails (in addition to the claimed multiple-`Head`
and misplaced-`Head` failures). -/
theorem C6_validate_characterization (l : List FileJournalChunk)
    (hnd : (l.map (·.id)).Nodup) :
    validateChunks l = Except.ok () ↔
      (l = [] ∨ ∃ c t, l = c :: t ∧ c.ftype = JournalFileType.Head ∧
        ∀ x ∈ t, x.ftype ≠ JournalFileType.Head) := by
  unfold validateChunks
  rw [findChunkHead_filter]
  rcases hf : l.filter (fun c => c.ftype = JournalFileType.Head) with _ | ⟨h1, t1⟩
  · rw [hf]
    dsimp only []
    constructor
    · intro hok
      left
      cases hl : l with
      | nil => rfl
      | cons c r =>
          exfalso
          rw [hl, List.head?_cons] at hok
          rw [if_neg] at hok
          · cases hok
          · simp
    · intro hcase
      rcases hcase with hnil | ⟨c, t, hl, hhead, _⟩
      · subst hnil; rfl
      · exfalso
        have hcmem : c ∈ l.filter (fun c => c.ftype = JournalFileType.Head) := by
          rw [hl]
          simp [List.filter_cons, hhead]
        rw [hf] at hcmem
        cases hcmem
  · cases t1 with
    | cons h2 t2 =>
        rw [hf]
        dsimp only []
        constructor
        · intro hok; cases hok
        · intro hcase
          exfalso
          rcases hcase with hnil | ⟨c, t, hl, hhead, hrest⟩
          · subst hnil; simp at hf
          · have : l.filter (fun c => c.ftype = JournalFileType.Head) = [c] := by
              rw [hl]
              simp only [List.filter_cons, decide_eq_true_eq, hhead, if_pos]
              congr 1
              rw [List.filter_eq_nil_iff]
              intro x hx
              simpa using hrest x hx
            rw [hf] at this
            cases this
    | nil =>
        have hh1 : h1 ∈ l ∧ h1.ftype = JournalFileType.Head := by
          have hmem : h1 ∈ l.filter (fun c => c.ftype = JournalFileType.Head) := by
            rw [hf]; simp
          exact ⟨List.mem_of_mem_filter hmem, by simpa using List.of_mem_filter hmem⟩
        rw [hf]
        dsimp only []
        have hinj := List.inj_on_of_nodup_map hnd
        constructor
        · intro hok
          right
          cases hl : l with
          | nil => rw [hl] at hh1; cases hh1.1
          | cons c r =>
              subst hl
              rw [List.head?_cons] at hok
              by_cases hid : h1.id = c.id
              · have hceq : h1 = c := hinj hh1.1 (by simp) hid
                refine ⟨c, r, rfl, hceq ▸ hh1.2, ?_⟩
                intro x hx hxh
                have hxf : x ∈ (c :: r).filter (fun c => c.ftype = JournalFileType.Head) := by
                  rw [List.mem_filter]
                  exact ⟨by simp [hx], by simpa using hxh⟩
                rw [hf] at hxf
                simp only [List.mem_singleton] at hxf
                subst hxf
                have hcr : c ∈ r := hceq ▸ hx
                simp only [List.map_cons, List.nodup_cons] at hnd
                exact hnd.1 (List.mem_map_of_mem (·.id) hcr)
              · exfalso
                rw [if_neg] at hok
                · cases hok
                · simpa using hid
        · intro hcase
          rcases hcase with hnil | ⟨c, t, hl, hhead, hrest⟩
          · subst hnil; simp at hf
          · have hfc : l.filter (fun c => c.ftype = JournalFileType.Head) = [c] := by
              rw [hl]
              simp only [List.filter_cons, decide_eq_true_eq, hhead, if_pos]
              congr 1
              rw [List.filter_eq_nil_iff]
              intro x hx
              simpa using hrest x hx
            rw [hf] at hfc
            have hc1 : h1 = c := by injection hfc
            subst hc1
            rw [hl]
            simp

def c6List : List FileJournalChunk :=
  [⟨0, ['p'], JournalFileType.Head, [], 3, [], 1⟩,
   ⟨1, ['q'], JournalFileType.Rest, [], 2, [], 1⟩]

theorem C6_witness :
    ((c6List.map (·.id)).Nodup) ∧
    (validateChunks c6List = Except.ok () ↔
      (c6List = [] ∨ ∃ c t, c6List = c :: t ∧ c.ftype = JournalFileType.Head ∧
        ∀ x ∈ t, x.ftype ≠ JournalFileType.Head)) :=
  ⟨by decide, C6_validate_characterization c6List (by decide)⟩

/-! ## The cascade, functionally

With every refcount at least 1, every file present, distinct paths and no
injected faults, `deleteRef` destroys exactly the maximal run of
refcount-one chunks starting at the target and walking newer-wards, then
decrements the first survivor. -/

def rcOne (c : FileJournalChunk) : Bool := c.refcount = 1

def decFirst : List FileJournalChunk → List FileJournalChunk
  | [] => []
  | c :: r => { c with refcount := c.refcount - 1 } :: r

def removeAll (fs : List (Name × Bytes)) (cs : List FileJournalChunk) :
    List (Name × Bytes) :=
  cs.foldr (fun c a => fsRemove a c.Path) fs

theorem fsGet_removeAll_ne (fs : List (Name × Bytes)) (cs : List FileJournalChunk)
    (p : Name) (h : ∀ c ∈ cs, p ≠ c.Path) :
    fsGet (removeAll fs cs) p = fsGet fs p := by
  induction cs with
  | nil => rfl
  | cons c r ih =>
      simp only [removeAll, List.foldr_cons]
      rw [fsGet_fsRemove_ne _ _ _ (h c (by simp))]
      exact ih (fun x hx => h x (by simp [hx]))

theorem cascade_spec (restRev : List FileJournalChunk) (c : FileJournalChunk)
    (fs : List (Name × Bytes))
    (hrc : ∀ x ∈ c :: restRev, 1 ≤ x.refcount)
    (hp : ((c :: restRev).map (·.Path)).Nodup)
    (hf : ∀ x ∈ c :: restRev, (fsGet fs x.Path).isSome) :
    deleteRefRev c restRev ⟨fs, []⟩ =
      some ⟨decFirst ((c :: restRev).dropWhile rcOne),
            ⟨removeAll fs ((c :: restRev).takeWhile rcOne), []⟩,
            none,
            rcOne c⟩ := by
  induction restRev generalizing c fs with
  | nil =>
      by_cases hc1 : c.refcount = 1
      · have hget : ∃ v, fsGet fs c.Path = some v := by
          have := hf c (by simp)
          cases hfs : fsGet fs c.Path with
          | none => rw [hfs] at this; cases this
          | some v => exact ⟨v, rfl⟩
        obtain ⟨v, hv⟩ := hget
        unfold deleteRefRev
        rw [if_neg (by omega), if_pos (by omega)]
        simp only [diskRemove, popFault, hv]
        simp [List.dropWhile, List.takeWhile, rcOne, hc1, decFirst, removeAll]
      · have hge : 2 ≤ c.refcount := by
          have := hrc c (by simp)
          omega
        unfold deleteRefRev
        rw [if_neg (by omega), if_neg (by omega)]
        simp [List.dropWhile, List.takeWhile, rcOne, hc1, decFirst, removeAll]
  | cons dn rest ih =>
      by_cases hc1 : c.refcount = 1
      · have hrest : ∀ x ∈ dn :: rest, 1 ≤ x.refcount :=
          fun x hx => hrc x (by simp [hx])
        have hprest : ((dn :: rest).map (·.Path)).Nodup := by
          simp only [List.map_cons, List.nodup_cons] at hp ⊢
          exact hp.2
        have hfrest : ∀ x ∈ dn :: rest, (fsGet fs x.Path).isSome :=
          fun x hx => hf x (by simp [hx])
        have hne : ∀ x ∈ (dn :: rest).takeWhile rcOne, c.Path ≠ x.Path := by
          intro x hx
          have hxm : x ∈ dn :: rest := (List.takeWhile_prefix rcOne).subset hx
          simp only [List.map_cons, List.nodup_cons] at hp
          intro he
          exact hp.1 (he ▸ List.mem_map_of_mem (·.Path) hxm)
        have hcg : (fsGet (removeAll fs ((dn :: rest).takeWhile rcOne)) c.Path).isSome := by
          rw [fsGet_removeAll_ne _ _ _ hne]
          exact hf c (by simp)
        obtain ⟨v, hv⟩ : ∃ v,
            fsGet (removeAll fs ((dn :: rest).takeWhile rcOne)) c.Path = some v := by
          cases hfs : fsGet (removeAll fs ((dn :: rest).takeWhile rcOne)) c.Path with
          | none => rw [hfs] at hcg; cases hcg
          | some v => exact ⟨v, rfl⟩
        unfold deleteRefRev
        rw [if_neg (by omega), if_pos (by omega)]
        dsimp only []
        rw [ih dn fs hrest hprest hfrest]
        simp only [diskRemove, popFault, hv]
        have hdw : (c :: dn :: rest).dropWhile rcOne = (dn :: rest).dropWhile rcOne := by
          simp [List.dropWhile, rcOne, hc1]
        have htw : (c :: dn :: rest).takeWhile rcOne = c :: (dn :: rest).takeWhile rcOne := by
          simp [List.takeWhile, rcOne, hc1]
        rw [hdw, htw]
        simp [removeAll, rcOne, hc1]
      · have hge : 2 ≤ c.refcount := by
          have := hrc c (by simp)
          omega
        unfold deleteRefRev
        rw [if_neg (by omega), if_neg (by omega)]
        have hdw : (c :: dn :: rest).dropWhile rcOne = c :: dn :: rest := by
          simp [List.dropWhile, rcOne, hc1]
        have htw : (c :: dn :: rest).takeWhile rcOne = [] := by
          simp [List.takeWhile, rcOne, hc1]
        rw [hdw, htw]
        simp [decFirst, removeAll, rcOne, hc1]

theorem splitAtId_of_append (a : List FileJournalChunk) (c : FileJournalChunk)
    (b : List FileJournalChunk) (h : ∀ x ∈ a, x.id ≠ c.id) :
    splitAtId (a ++ c :: b) c.id = some (a, c, b) := by
  induction a with
  | nil => simp [splitAtId]
  | cons x r ih =>
      simp only [List.cons_append, splitAtId]
      rw [if_neg (h x (by simp))]
      simp only [List.append_eq]
      rw [ih (fun y hy => h y (by simp [hy]))]

/-- `deleteRef` on a well-formed journal with no injected faults: the target
and the maximal refcount-one run of newer chunks above it are destroyed (their
files removed), the next newer chunk is decremented, everything older is
untouched. -/
theorem deleteRef_spec (j : FileJournal) (fs : List (Name × Bytes))
    (a : List FileJournalChunk) (c : FileJournalChunk) (b : List FileJournalChunk)
    (hl : j.chunks = a ++ c :: b)
    (hcid : ∀ x ∈ a, x.id ≠ c.id)
    (hrc : ∀ x ∈ c :: a.reverse, 1 ≤ x.refcount)
    (hp : ((c :: a.reverse).map (·.Path)).Nodup)
    (hf : ∀ x ∈ c :: a.reverse, (fsGet fs x.Path).isSome) :
    deleteRef j ⟨fs, []⟩ c.id =
      some (none,
        { j with chunks := (decFirst ((c :: a.reverse).dropWhile rcOne)).reverse ++ b },
        ⟨removeAll fs ((c :: a.reverse).takeWhile rcOne), []⟩,
        rcOne c) := by
  unfold deleteRef
  rw [hl, splitAtId_of_append a c b hcid]
  dsimp only []
  rw [cascade_spec a.reverse c fs hrc hp hf]

/-! ## Purge -/

theorem addRef_of_not_mem (l : List FileJournalChunk) (cid : Nat)
    (h : ∀ x ∈ l, x.id ≠ cid) : addRef l cid = l := by
  induction l with
  | nil => rfl
  | cons x r ih =>
      simp only [addRef, List.map_cons]
      rw [if_neg (h x (by simp))]
      have := ih (fun y hy => h y (by simp [hy]))
      simp only [addRef] at this
      rw [this]

theorem dropWhile_head_false (p : FileJournalChunk → Bool) (l : List FileJournalChunk)
    (s : FileJournalChunk) (tail : List FileJournalChunk)
    (h : l.dropWhile p = s :: tail) : p s = false := by
  induction l with
  | nil => cases h
  | cons x r ih =>
      rw [List.dropWhile_cons] at h
      by_cases hx : p x = true
      · rw [if_pos hx] at h
        exact ih h
      · rw [if_neg hx] at h
        cases h
        simpa using hx

theorem dropWhile_of_head_false (p : FileJournalChunk → Bool)
    (s : FileJournalChunk) (tail : List FileJournalChunk)
    (h : p s = false) : (s :: tail).dropWhile p = s :: tail := by
  rw [List.dropWhile_cons, if_neg (by simp [h])]

theorem takeWhile_of_head_false (p : FileJournalChunk → Bool)
    (s : FileJournalChunk) (tail : List FileJournalChunk)
    (h : p s = false) : (s :: tail).takeWhile p = [] := by
  rw [List.takeWhile_cons, if_neg (by simp [h])]

/-- `FileJournal.Purge` under the steady-state invariant (all refcounts at
least 1, distinct ids and paths, all files present, no faults): it destroys
exactly the maximal run of refcount-one chunks at the oldest end, removes
their files, and leaves every surviving chunk — including the new oldest,
whose decrement is restored — unchanged. -/
theorem purge_spec (j : FileJournal) (fs : List (Name × Bytes))
    (hrc : ∀ x ∈ j.chunks, 1 ≤ x.refcount)
    (hids : (j.chunks.map (·.id)).Nodup)
    (hp : (j.chunks.map (·.Path)).Nodup)
    (hf : ∀ x ∈ j.chunks, (fsGet fs x.Path).isSome) :
    fjPurge j ⟨fs, []⟩ =
      some (none,
        { j with chunks := (j.chunks.reverse.dropWhile rcOne).reverse },
        ⟨removeAll fs (j.chunks.reverse.takeWhile rcOne), []⟩) := by
  cases hl : j.chunks.getLast? with
  | none =>
      have hempty : j.chunks = [] := List.getLast?_eq_none_iff.mp hl
      obtain ⟨k, ch, w, pos, ni⟩ := j
      simp only at hempty hl
      subst hempty
      simp [fjPurge, removeAll]
  | some lc =>
      have hne : j.chunks ≠ [] := by
        intro hc
        rw [hc] at hl
        cases hl
      have hsplit : j.chunks = j.chunks.dropLast ++ [lc] := by
        conv_lhs => rw [← List.dropLast_append_getLast hne]
        congr 1
        simp only [List.getLast?_eq_getLast _ hne, Option.some.injEq] at hl
        rw [hl]
      set a := j.chunks.dropLast with ha
      have hrev : j.chunks.reverse = lc :: a.reverse := by
        rw [hsplit]
        simp
      have hmem : ∀ x ∈ lc :: a.reverse, x ∈ j.chunks := by
        intro x hx
        rw [← hrev] at hx
        exact List.mem_reverse.mp hx
      have hcid : ∀ x ∈ a, x.id ≠ lc.id := by
        intro x hx he
        have : (j.chunks.map (·.id)).Nodup := hids
        rw [hsplit] at this
        simp only [List.map_append, List.map_cons, List.map_nil] at this
        have hd := List.disjoint_of_nodup_append this
        exact hd (List.mem_map_of_mem (·.id) hx) (by simp [he])
      have hdel := deleteRef_spec j fs a lc [] (by rw [← hsplit]) hcid
        (fun x hx => hrc x (hmem x hx))
        (by rw [← hrev, List.map_reverse]; exact List.nodup_reverse.mpr hp)
        (fun x hx => hf x (hmem x hx))
      unfold fjPurge
      rw [hl]
      dsimp only []
      rw [hdel]
      dsimp only []
      simp only [List.append_nil]
      rw [← hrev]
      cases hDc : j.chunks.reverse.dropWhile rcOne with
      | nil => simp [decFirst]
      | cons s tail =>
          have hDids : ((s :: tail).map (·.id)).Nodup := by
            have hsfx : (s :: tail).map (·.id) <:+ j.chunks.reverse.map (·.id) := by
              rw [← hDc]
              exact List.IsSuffix.map _ (List.dropWhile_suffix rcOne)
            have hrevnd : (j.chunks.reverse.map (·.id)).Nodup := by
              rw [List.map_reverse]
              exact List.nodup_reverse.mpr hids
            exact hrevnd.sublist hsfx.sublist
          simp only [decFirst, List.reverse_cons]
          have hgl : ((tail.reverse) ++ [{ s with refcount := s.refcount - 1 }]).getLast?
              = some { s with refcount := s.refcount - 1 } := by
            simp [List.getLast?_concat]
          rw [hgl]
          have htail : ∀ x ∈ tail.reverse, x.id ≠ s.id := by
            intro x hx he
            simp only [List.map_cons, List.nodup_cons] at hDids
            exact hDids.1 (he ▸ List.mem_map_of_mem (·.id) (List.mem_reverse.mp hx))
          have haddr : addRef (tail.reverse ++ [{ s with refcount := s.refcount - 1 }])
              ({ s with refcount := s.refcount - 1 }).id = tail.reverse ++ [s] := by
            unfold addRef
            rw [List.map_append]
            congr 1
            · have hfx : ∀ x ∈ tail.reverse,
                  (if x.id = ({ s with refcount := s.refcount - 1 }).id then
                    { x with refcount := x.refcount + 1 } else x) = x := by
                intro x hx
                exact if_neg (htail x hx)
              calc tail.reverse.map _ = tail.reverse.map id := List.map_congr_left hfx
                _ = tail.reverse := List.map_id _
            · simp only [List.map_cons, List.map_nil, if_pos]
              have hrc1 : s.refcount - 1 + 1 = s.refcount := by omega
              rw [hrc1]
          simp only [haddr]

/-- Claim C8: `purge` is idempotent in the absence of concurrent operations.
Under the steady-state invariant (every linked chunk's refcount at least 1,
distinct ids and paths, every chunk file on disk, no injected faults), a first
`Purge` succeeds yielding some journal and disk, and a second `Purge` run on
that result succeeds and leaves the chunk list, every refcount and the disk
exactly unchanged. -/
theorem C8_purge_idempotent (j : FileJournal) (fs : List (Name × Bytes))
    (hrc : ∀ x ∈ j.chunks, 1 ≤ x.refcount)
    (hids : (j.chunks.map (·.id)).Nodup)
    (hp : (j.chunks.map (·.Path)).Nodup)
    (hf : ∀ x ∈ j.chunks, (fsGet fs x.Path).isSome) :
    ∃ j1 d1, fjPurge j ⟨fs, []⟩ = some (none, j1, d1) ∧
      fjPurge j1 d1 = some (none, j1, d1) := by
  have h1 := purge_spec j fs hrc hids hp hf
  refine ⟨_, _, h1, ?_⟩
  have hmemD : ∀ x ∈ (j.chunks.reverse.dropWhile rcOne).reverse, x ∈ j.chunks := by
    intro x hx
    exact List.mem_reverse.mp ((List.dropWhile_suffix rcOne).subset (List.mem_reverse.mp hx))
  have hids1 : (((j.chunks.reverse.dropWhile rcOne).reverse).map (·.id)).Nodup := by
    rw [List.map_reverse]
    apply List.nodup_reverse.mpr
    have hsfx : (j.chunks.reverse.dropWhile rcOne).map (·.id) <:+
        j.chunks.reverse.map (·.id) := List.IsSuffix.map _ (List.dropWhile_suffix rcOne)
    have hrevnd : (j.chunks.reverse.map (·.id)).Nodup := by
      rw [List.map_reverse]
      exact List.nodup_reverse.mpr hids
    exact hrevnd.sublist hsfx.sublist
  have hp1 : (((j.chunks.reverse.dropWhile rcOne).reverse).map (·.Path)).Nodup := by
    rw [List.map_reverse]
    apply List.nodup_reverse.mpr
    have hsfx : (j.chunks.reverse.dropWhile rcOne).map (·.Path) <:+
        j.chunks.reverse.map (·.Path) := List.IsSuffix.map _ (List.dropWhile_suffix rcOne)
    have hrevnd : (j.chunks.reverse.map (·.Path)).Nodup := by
      rw [List.map_reverse]
      exact List.nodup_reverse.mpr hp
    exact hrevnd.sublist hsfx.sublist
  have hrc1 : ∀ x ∈ (j.chunks.reverse.dropWhile rcOne).reverse, 1 ≤ x.refcount :=
    fun x hx => hrc x (hmemD x hx)
  have hdisj : ∀ x ∈ j.chunks.reverse.dropWhile rcOne,
      ∀ c ∈ j.chunks.reverse.takeWhile rcOne, x.Path ≠ c.Path := by
    intro x hx c hc he
    have hrevnd : (j.chunks.reverse.map (·.Path)).Nodup := by
      rw [List.map_reverse]
      exact List.nodup_reverse.mpr hp
    rw [← List.takeWhile_append_dropWhile rcOne j.chunks.reverse] at hrevnd
    rw [List.map_append] at hrevnd
    have hd := List.disjoint_of_nodup_append hrevnd
    exact hd (List.mem_map_of_mem (·.Path) hc) (he ▸ List.mem_map_of_mem (·.Path) hx)
  have hf1 : ∀ x ∈ (j.chunks.reverse.dropWhile rcOne).reverse,
      (fsGet (removeAll fs (j.chunks.reverse.takeWhile rcOne)) x.Path).isSome := by
    intro x hx
    rw [fsGet_removeAll_ne _ _ _ (hdisj x (List.mem_reverse.mp hx))]
    exact hf x (hmemD x hx)
  have h2 := purge_spec { j with chunks := (j.chunks.reverse.dropWhile rcOne).reverse }
    (removeAll fs (j.chunks.reverse.takeWhile rcOne)) hrc1 hids1 hp1 hf1
  dsimp only [] at h2
  rw [List.reverse_reverse] at h2
  cases hDc : j.chunks.reverse.dropWhile rcOne with
  | nil =>
      rw [hDc] at h2
      simpa [removeAll] using h2
  | cons s tail =>
      have hs1 : rcOne s = false := dropWhile_head_false rcOne j.chunks.reverse s tail hDc
      rw [hDc, dropWhile_of_head_false rcOne s tail hs1,
        takeWhile_of_head_false rcOne s tail hs1] at h2
      simpa [removeAll] using h2

def c8Journal : FileJournal :=
  ⟨['k'],
   [⟨2, ['h'], JournalFileType.Head, [], 0, [], 2⟩,
    ⟨1, ['m'], JournalFileType.Rest, [], 0, [], 1⟩,
    ⟨0, ['o'], JournalFileType.Rest, [], 0, [], 1⟩],
   some 2, 0, 3⟩

def c8Files : List (Name × Bytes) := [(['o'], [1]), (['m'], [2]), (['h'], [3])]

theorem C8_witness :
    ((∀ x ∈ c8Journal.chunks, 1 ≤ x.refcount) ∧
      ((c8Journal.chunks.map (·.id)).Nodup) ∧
      ((c8Journal.chunks.map (·.Path)).Nodup) ∧
      (∀ x ∈ c8Journal.chunks, (fsGet c8Files x.Path).isSome)) ∧
    (∃ j1 d1, fjPurge c8Journal ⟨c8Files, []⟩ = some (none, j1, d1) ∧
      fjPurge j1 d1 = some (none, j1, d1)) :=
  ⟨⟨by decide, by decide, by decide, by decide⟩,
    C8_purge_idempotent c8Journal c8Files (by decide) (by decide) (by decide) (by decide)⟩

/-! ## Claim C2: take-ownership + dispose on the oldest handle -/

/-- The base three-chunk journal state (as produced by normal operation or a
restart: every chunk carries its single anchor refcount, the head also the
writer's). -/
def c2J0 : FileJournal :=
  ⟨['k'],
   [⟨2, ['h'], JournalFileType.Head, [], 3, [], 2⟩,
    ⟨1, ['m'], JournalFileType.Rest, [], 2, [], 1⟩,
    ⟨0, ['o'], JournalFileType.Rest, [], 1, [], 1⟩],
   some 2, 0, 3⟩

def c2D0 : Disk := ⟨[(['o'], [1]), (['m'], [2]), (['h'], [3])], []⟩

def c2Final : Option (Option String × FileJournalChunkWrapper × FileJournal × Disk) :=
  match getTailChunk c2J0 with
  | (some w, j1) =>
      match wrapperTakeOwnership w j1 c2D0 with
      | some (true, w2, j2, d2) => wrapperDispose w2 j2 d2
      | _ => none
  | _ => none

/-- Claim C2 counterexample: on a three-chunk journal in the base state
(each chunk holding its single anchor refcount, the head also the writer's),
the tail handle's `TakeOwnership` returns true and `Dispose` returns without
error — but the previously second-oldest chunk (id 1, path `m`) is **not**
the new oldest: the cascade destroyed it too (only the head survives), it is
no longer linked and its file is gone, contradicting the claim. -/
theorem C2_counterexample :
    c2J0.chunks.length = 3 ∧
    c2Final = some (none, ⟨none, true⟩,
      ⟨['k'], [⟨2, ['h'], JournalFileType.Head, [], 3, [], 2⟩], some 2, 0, 3⟩,
      ⟨[(['h'], [3])], []⟩) ∧
    findChunk [⟨2, ['h'], JournalFileType.Head, [], 3, [], 2⟩] 1 = none ∧
    fsGet [(['h'], [3])] ['m'] = none := by
  refine ⟨by decide, by decide, by decide, by decide⟩

theorem fsGet_eq_none_of_not_mem (fs : List (Name × Bytes)) (p : Name)
    (h : ∀ e ∈ fs, e.1 ≠ p) : fsGet fs p = none := by
  induction fs with
  | nil => rfl
  | cons e r ih =>
      simp only [fsGet]
      rw [if_neg (h e (by simp))]
      exact ih (fun x hx => h x (by simp [hx]))

theorem fsGet_fsRemove_self (fs : List (Name × Bytes)) (p : Name)
    (h : (fs.map (·.1)).Nodup) : fsGet (fsRemove fs p) p = none := by
  induction fs with
  | nil => rfl
  | cons e r ih =>
      simp only [List.map_cons, List.nodup_cons] at h
      simp only [fsRemove]
      by_cases he : e.1 = p
      · rw [if_pos he]
        apply fsGet_eq_none_of_not_mem
        intro x hx hxp
        exact h.1 (by rw [he, ← hxp]; exact List.mem_map_of_mem (·.1) hx)
      · rw [if_neg he]
        simp only [fsGet]
        rw [if_neg he]
        exact ih h.2

theorem addRef_append_last (l : List FileJournalChunk) (c : FileJournalChunk)
    (h : ∀ x ∈ l, x.id ≠ c.id) :
    addRef (l ++ [c]) c.id = l ++ [{ c with refcount := c.refcount + 1 }] := by
  unfold addRef
  rw [List.map_append]
  congr 1
  · have hfx : ∀ x ∈ l,
        (if x.id = c.id then { x with refcount := x.refcount + 1 } else x) = x :=
      fun x hx => if_neg (h x hx)
    calc l.map _ = l.map id := List.map_congr_left hfx
      _ = l := List.map_id _
  · simp

theorem getTailChunk_eq (j : FileJournal) (l : List FileJournalChunk)
    (c : FileJournalChunk) (hl : j.chunks = l ++ [c])
    (hids : ∀ x ∈ l, x.id ≠ c.id) :
    getTailChunk j = (some ⟨some c.id, false⟩,
      { j with chunks := l ++ [{ c with refcount := c.refcount + 1 }] }) := by
  unfold getTailChunk
  rw [hl, List.getLast?_concat]
  dsimp only [newChunkWrapper]
  rw [hl, addRef_append_last l c hids]

/-- Claim C2 (amended): the claimed behaviour holds only when the
second-oldest chunk carries a refcount of at least 2 (it is pinned by a
handle or some other extra reference) while the oldest chunk carries exactly
the list-anchor refcount 1.  Then `take_ownership` on the tail handle returns
true, `dispose` returns without error, the formerly oldest chunk's file is
removed, and the previously second-oldest chunk is the new oldest: still
linked, its file still on disk, refcount at least 1.  (In the base state,
where the second-oldest chunk's refcount is exactly 1, the cascade destroys
it as well — see the counterexample.) -/
theorem C2_amended (j : FileJournal) (fs : List (Name × Bytes))
    (rest : List FileJournalChunk) (m c : FileJournalChunk)
    (hl : j.chunks = rest ++ [m, c])
    (hrest : rest ≠ [])
    (hc1 : c.refcount = 1)
    (hm2 : 2 ≤ m.refcount)
    (hrcall : ∀ x ∈ rest, 1 ≤ x.refcount)
    (hids : (j.chunks.map (·.id)).Nodup)
    (hp : (j.chunks.map (·.Path)).Nodup)
    (hfs : (fs.map (·.1)).Nodup)
    (hf : ∀ x ∈ j.chunks, (fsGet fs x.Path).isSome) :
    ∃ w j1, getTailChunk j = (some w, j1) ∧
    ∃ w2 j2 d2, wrapperTakeOwnership w j1 ⟨fs, []⟩ = some (true, w2, j2, d2) ∧
    ∃ w3 j3 d3, wrapperDispose w2 j2 d2 = some (none, w3, j3, d3) ∧
      j3.chunks = rest ++ [m] ∧
      fsGet d3.files c.Path = none ∧
      fsGet d3.files m.Path = fsGet fs m.Path ∧
      1 ≤ m.refcount := by
  have hl' : j.chunks = (rest ++ [m]) ++ [c] := by rw [hl]; simp
  have hidsc : ∀ x ∈ rest ++ [m], x.id ≠ c.id := by
    intro x hx he
    have hnd := hids
    rw [hl'] at hnd
    rw [List.map_append] at hnd
    have hd := List.disjoint_of_nodup_append hnd
    exact hd (List.mem_map_of_mem (·.id) hx) (by simp [he])
  have htail := getTailChunk_eq j (rest ++ [m]) c hl' hidsc
  refine ⟨⟨some c.id, false⟩, _, htail, ?_⟩
  -- segment path facts shared by both deleteRef calls
  have hpseg : ∀ pth : FileJournalChunk → Name,
      ((j.chunks).map pth).Nodup → ((c :: (rest ++ [m]).reverse).map pth).Nodup := by
    intro pth hnd
    rw [hl'] at hnd
    have h1 : ((rest ++ [m]) ++ [c]).Perm (c :: (rest ++ [m])) :=
      List.perm_append_singleton c (rest ++ [m])
    have h2 : (c :: (rest ++ [m])).Perm (c :: (rest ++ [m]).reverse) :=
      List.Perm.cons c (List.reverse_perm (rest ++ [m])).symm
    exact ((h1.trans h2).map pth).nodup hnd
  have hmemseg : ∀ x ∈ c :: (rest ++ [m]).reverse, x ∈ j.chunks := by
    intro x hx
    rw [hl']
    rcases List.mem_cons.mp hx with h | h
    · simp [h]
    · have := List.mem_reverse.mp h
      simp only [List.mem_append] at this ⊢
      tauto
  have hrcseg : ∀ x ∈ c :: (rest ++ [m]).reverse, 1 ≤ x.refcount := by
    intro x hx
    rcases List.mem_cons.mp hx with h | h
    · rw [h]; omega
    · have hxm := List.mem_reverse.mp h
      rcases List.mem_append.mp hxm with h2 | h2
      · exact hrcall x h2
      · simp only [List.mem_singleton] at h2
        rw [h2]; omega
  have hfseg : ∀ x ∈ c :: (rest ++ [m]).reverse, (fsGet fs x.Path).isSome :=
    fun x hx => hf x (hmemseg x hx)
  -- the TakeOwnership deleteRef: target refcount 2, plain decrement
  have hc2rc : ({ c with refcount := c.refcount + 1 } : FileJournalChunk).refcount = 2 := by
    simp; omega
  have hdel1 := deleteRef_spec
    { j with chunks := (rest ++ [m]) ++ [{ c with refcount := c.refcount + 1 }] } fs
    (rest ++ [m]) { c with refcount := c.refcount + 1 } [] rfl hidsc
    (by
      intro x hx
      rcases List.mem_cons.mp hx with h | h
      · rw [h, hc2rc]; omega
      · exact hrcseg x (List.mem_cons_of_mem _ h))
    (hpseg (·.Path) hp)
    (by
      intro x hx
      rcases List.mem_cons.mp hx with h | h
      · rw [h]; exact hf c (by rw [hl']; simp)
      · exact hfseg x (List.mem_cons_of_mem _ h))
  have hnotOne : rcOne { c with refcount := c.refcount + 1 } = false := by
    simp [rcOne]; omega
  rw [dropWhile_of_head_false _ _ _ hnotOne, takeWhile_of_head_false _ _ _ hnotOne] at hdel1
  have hdecc2 : ({ c with refcount := c.refcount + 1 } : FileJournalChunk).refcount - 1
      = c.refcount := by simp
  simp only [decFirst, hdecc2, removeAll, List.foldr_nil] at hdel1
  have hTO : wrapperTakeOwnership ⟨some c.id, false⟩
      { j with chunks := (rest ++ [m]) ++ [{ c with refcount := c.refcount + 1 }] }
      ⟨fs, []⟩ =
      some (true, ⟨some c.id, true⟩,
        { j with chunks := (rest ++ [m]) ++ [c] }, ⟨fs, []⟩) := by
    unfold wrapperTakeOwnership
    dsimp only []
    rw [if_neg (by simp)]
    rw [hdel1]
    simp
  refine ⟨⟨some c.id, true⟩, _, _, hTO, ?_⟩
  -- the Dispose deleteRef: target refcount 1, cascade of length one
  have hdel2 := deleteRef_spec { j with chunks := (rest ++ [m]) ++ [c] } fs
    (rest ++ [m]) c [] rfl hidsc hrcseg (hpseg (·.Path) hp) hfseg
  have hcOne : rcOne c = true := by simp [rcOne, hc1]
  have hmNotOne : rcOne m = false := by simp [rcOne]; omega
  have hrevam : (rest ++ [m]).reverse = m :: rest.reverse := by simp
  rw [hrevam] at hdel2
  rw [show (c :: m :: rest.reverse).dropWhile rcOne = m :: rest.reverse by
      rw [List.dropWhile_cons, if_pos (by simp [hcOne])]
      exact dropWhile_of_head_false _ _ _ hmNotOne] at hdel2
  rw [show (c :: m :: rest.reverse).takeWhile rcOne = [c] by
      rw [List.takeWhile_cons, if_pos (by simp [hcOne])]
      rw [takeWhile_of_head_false _ _ _ hmNotOne]] at hdel2
  simp only [decFirst, removeAll, List.foldr_cons, List.foldr_nil, hcOne] at hdel2
  have hmids : ∀ x ∈ rest, x.id ≠ m.id := by
    intro x hx he
    have hnd := hids
    rw [hl] at hnd
    rw [List.map_append] at hnd
    have hd := List.disjoint_of_nodup_append hnd
    exact hd (List.mem_map_of_mem (·.id) hx) (by simp [he])
  have hDisp : wrapperDispose ⟨some c.id, true⟩
      { j with chunks := (rest ++ [m]) ++ [c] } ⟨fs, []⟩ =
      some (none, ⟨none, true⟩,
        { j with chunks := rest ++ [m] }, ⟨fsRemove fs c.Path, []⟩) := by
    unfold wrapperDispose
    dsimp only []
    rw [hdel2]
    dsimp only []
    rw [if_pos ?side]
    case side =>
      refine ⟨rfl, rfl, ?_⟩
      rw [List.getLast?_concat]
      rfl
    simp only [decFirst, List.append_nil]
    rw [show ({ m with refcount := m.refcount - 1 } :: rest.reverse).reverse
        = rest ++ [{ m with refcount := m.refcount - 1 }] by simp]
    rw [List.getLast?_concat]
    dsimp only []
    have haddm : addRef (rest ++ [{ m with refcount := m.refcount - 1 }])
        ({ m with refcount := m.refcount - 1 }).id = rest ++ [m] := by
      rw [addRef_append_last rest _ (by
        intro x hx
        simpa using hmids x hx)]
      have harith : m.refcount - 1 + 1 = m.refcount := by omega
      simp [harith]
    simp only [haddm]
  refine ⟨⟨none, true⟩, _, _, hDisp, rfl, ?_, ?_, by omega⟩
  · exact fsGet_fsRemove_self fs c.Path hfs
  · apply fsGet_fsRemove_ne
    intro he
    have hnd := hp
    rw [hl] at hnd
    have : m.Path ∈ (rest ++ [m, c]).map (·.Path) := by simp
    rw [show rest ++ [m, c] = (rest ++ [m]) ++ [c] by simp] at hnd
    rw [List.map_append] at hnd
    have hd := List.disjoint_of_nodup_append hnd
    exact hd (List.mem_map_of_mem (·.Path) (by simp : m ∈ rest ++ [m])) (by simp [he])

def c2wH : FileJournalChunk := ⟨2, ['h'], JournalFileType.Head, [], 3, [], 2⟩

def c2wM : FileJournalChunk := ⟨1, ['m'], JournalFileType.Rest, [], 2, [], 2⟩

def c2wC : FileJournalChunk := ⟨0, ['o'], JournalFileType.Rest, [], 1, [], 1⟩

def c2wJ : FileJournal := ⟨['k'], [c2wH, c2wM, c2wC], some 2, 0, 3⟩

def c2wFs : List (Name × Bytes) := [(['o'], [1]), (['m'], [2]), (['h'], [3])]

theorem C2_witness :
    (c2wJ.chunks = [c2wH] ++ [c2wM, c2wC] ∧ c2wC.refcount = 1 ∧ 2 ≤ c2wM.refcount) ∧
    (∃ w j1, getTailChunk c2wJ = (some w, j1) ∧
     ∃ w2 j2 d2, wrapperTakeOwnership w j1 ⟨c2wFs, []⟩ = some (true, w2, j2, d2) ∧
     ∃ w3 j3 d3, wrapperDispose w2 j2 d2 = some (none, w3, j3, d3) ∧
       j3.chunks = [c2wH] ++ [c2wM] ∧
       fsGet d3.files c2wC.Path = none ∧
       fsGet d3.files c2wM.Path = fsGet c2wFs c2wM.Path ∧
       1 ≤ c2wM.refcount) :=
  ⟨⟨by decide, by decide, by decide⟩,
    C2_amended c2wJ c2wFs [c2wH] c2wM c2wC (by decide) (by decide) (by decide)
      (by decide) (by decide) (by decide) (by decide) (by decide) (by decide)⟩

/-! ## Claim C3: direction of the cascade and the error undo -/

/-- The ids of the chunks a `deleteRefRev` call leaves in its segment form a
sublist of the input segment's ids (the cascade only ever removes chunks, and
only from the target-and-newer side). -/
theorem deleteRefRev_ids_sublist (restRev : List FileJournalChunk)
    (c : FileJournalChunk) (d : Disk) (r : DelRes)
    (h : deleteRefRev c restRev d = some r) :
    List.Sublist (r.seg.map (·.id)) ((c :: restRev).map (·.id)) := by
  induction restRev generalizing c d r with
  | nil =>
      unfold deleteRefRev at h
      by_cases h1 : c.refcount - 1 < 0
      · rw [if_pos h1] at h; cases h
      · rw [if_neg h1] at h
        by_cases h2 : c.refcount - 1 = 0
        · rw [if_pos h2] at h
          dsimp only [] at h
          cases hdr : diskRemove d c.Path with
          | mk e? d2 =>
              rw [hdr] at h
              cases e? with
              | some e =>
                  dsimp only [] at h
                  injection h with h1
                  rw [← h1]
              | none =>
                  dsimp only [] at h
                  injection h with h1
                  rw [← h1]
                  exact List.nil_sublist _
        · rw [if_neg h2] at h
          injection h with h1
          rw [← h1]
          exact List.Sublist.refl _
  | cons dn rest ih =>
      unfold deleteRefRev at h
      by_cases h1 : c.refcount - 1 < 0
      · rw [if_pos h1] at h; cases h
      · rw [if_neg h1] at h
        by_cases h2 : c.refcount - 1 = 0
        · rw [if_pos h2] at h
          dsimp only [] at h
          cases hrr : deleteRefRev dn rest d with
          | none => rw [hrr] at h; cases h
          | some r2 =>
              rw [hrr] at h
              dsimp only [] at h
              have hsub := ih dn d r2 hrr
              cases he : r2.err with
              | some e =>
                  rw [he] at h
                  dsimp only [] at h
                  injection h with h1
                  rw [← h1]
                  simp only [List.map_cons]
                  exact List.Sublist.cons₂ _ hsub
              | none =>
                  rw [he] at h
                  dsimp only [] at h
                  cases hdr : diskRemove r2.disk c.Path with
                  | mk e? d2 =>
                      rw [hdr] at h
                      cases e? with
                      | some e =>
                          dsimp only [] at h
                          injection h with h1
                          rw [← h1]
                          simp only [List.map_cons]
                          exact List.Sublist.cons₂ _ hsub
                      | none =>
                          dsimp only [] at h
                          injection h with h1
                          rw [← h1]
                          simp only [List.map_cons]
                          exact List.Sublist.cons _ hsub
        · rw [if_neg h2] at h
          injection h with h1
          rw [← h1]
          exact List.Sublist.refl _

/-- On an error result, `deleteRefRev` has undone the target's decrement: the
target chunk sits unchanged at the head of the returned segment and is not
destroyed. -/
theorem deleteRefRev_err (restRev : List FileJournalChunk) (c : FileJournalChunk)
    (d : Disk) (r : DelRes) (e : String)
    (h : deleteRefRev c restRev d = some r) (he : r.err = some e) :
    r.destroyed = false ∧ ∃ t, r.seg = c :: t ∧
      List.Sublist (t.map (·.id)) (restRev.map (·.id)) := by
  unfold deleteRefRev at h
  by_cases h1 : c.refcount - 1 < 0
  · rw [if_pos h1] at h; cases h
  · rw [if_neg h1] at h
    by_cases h2 : c.refcount - 1 = 0
    · rw [if_pos h2] at h
      cases restRev with
      | nil =>
          dsimp only [] at h
          cases hdr : diskRemove d c.Path with
          | mk e? d2 =>
              rw [hdr] at h
              cases e? with
              | some e2 =>
                  dsimp only [] at h
                  injection h with h1
                  rw [← h1]
                  exact ⟨rfl, [], rfl, List.nil_sublist _⟩
              | none =>
                  dsimp only [] at h
                  injection h with h1
                  rw [← h1] at he
                  cases he
      | cons dn rest =>
          dsimp only [] at h
          cases hrr : deleteRefRev dn rest d with
          | none => rw [hrr] at h; cases h
          | some r2 =>
              rw [hrr] at h
              dsimp only [] at h
              have hsub2 := deleteRefRev_ids_sublist rest dn d r2 hrr
              cases he2 : r2.err with
              | some e2 =>
                  rw [he2] at h
                  dsimp only [] at h
                  injection h with h1
                  rw [← h1]
                  exact ⟨rfl, r2.seg, rfl, by simpa using hsub2⟩
              | none =>
                  rw [he2] at h
                  dsimp only [] at h
                  cases hdr : diskRemove r2.disk c.Path with
                  | mk e? d2 =>
                      rw [hdr] at h
                      cases e? with
                      | some e2 =>
                          dsimp only [] at h
                          injection h with h1
                          rw [← h1]
                          exact ⟨rfl, r2.seg, rfl, by simpa using hsub2⟩
                      | none =>
                          dsimp only [] at h
                          injection h with h1
                          rw [← h1] at he
                          cases he
    · rw [if_neg h2] at h
      injection h with h1
      rw [← h1] at he
      cases he

/-- A destroyed target disappears from the segment: the remaining ids form a
sublist of the newer part's ids alone. -/
theorem deleteRefRev_destroyed_ids (restRev : List FileJournalChunk)
    (c : FileJournalChunk) (d : Disk) (r : DelRes)
    (h : deleteRefRev c restRev d = some r) (hd : r.destroyed = true) :
    List.Sublist (r.seg.map (·.id)) (restRev.map (·.id)) := by
  unfold deleteRefRev at h
  by_cases h1 : c.refcount - 1 < 0
  · rw [if_pos h1] at h; cases h
  · rw [if_neg h1] at h
    by_cases h2 : c.refcount - 1 = 0
    · rw [if_pos h2] at h
      cases restRev with
      | nil =>
          dsimp only [] at h
          cases hdr : diskRemove d c.Path with
          | mk e? d2 =>
              rw [hdr] at h
              cases e? with
              | some e2 =>
                  dsimp only [] at h
                  injection h with h1
                  rw [← h1] at hd
                  cases hd
              | none =>
                  dsimp only [] at h
                  injection h with h1
                  rw [← h1]
      | cons dn rest =>
          dsimp only [] at h
          cases hrr : deleteRefRev dn rest d with
          | none => rw [hrr] at h; cases h
          | some r2 =>
              rw [hrr] at h
              dsimp only [] at h
              have hsub2 := deleteRefRev_ids_sublist rest dn d r2 hrr
              cases he2 : r2.err with
              | some e2 =>
                  rw [he2] at h
                  dsimp only [] at h
                  injection h with h1
                  rw [← h1] at hd
                  cases hd
              | none =>
                  rw [he2] at h
                  dsimp only [] at h
                  cases hdr : diskRemove r2.disk c.Path with
                  | mk e? d2 =>
                      rw [hdr] at h
                      cases e? with
                      | some e2 =>
                          dsimp only [] at h
                          injection h with h1
                          rw [← h1] at hd
                          cases hd
                      | none =>
                          dsimp only [] at h
                          injection h with h1
                          rw [← h1]
                          exact hsub2
    · rw [if_neg h2] at h
      injection h with h1
      rw [← h1] at hd
      cases hd

/-- A successful `deleteRefRev` whose target's refcount was exactly 1
destroys the target. -/
theorem deleteRefRev_one_ok_destroyed (restRev : List FileJournalChunk)
    (c : FileJournalChunk) (d : Disk) (r : DelRes)
    (h : deleteRefRev c restRev d = some r)
    (hc1 : c.refcount = 1) (hok : r.err = none) :
    r.destroyed = true := by
  unfold deleteRefRev at h
  rw [if_neg (by omega), if_pos (by omega)] at h
  cases restRev with
  | nil =>
      dsimp only [] at h
      cases hdr : diskRemove d c.Path with
      | mk e? d2 =>
          rw [hdr] at h
          cases e? with
          | some e2 =>
              dsimp only [] at h
              injection h with h1
              rw [← h1] at hok
              cases hok
          | none =>
              dsimp only [] at h
              injection h with h1
              rw [← h1]
  | cons dn rest =>
      dsimp only [] at h
      cases hrr : deleteRefRev dn rest d with
      | none => rw [hrr] at h; cases h
      | some r2 =>
          rw [hrr] at h
          dsimp only [] at h
          cases he2 : r2.err with
          | some e2 =>
              rw [he2] at h
              dsimp only [] at h
              injection h with h1
              rw [← h1] at hok
              cases hok
          | none =>
              rw [he2] at h
              dsimp only [] at h
              cases hdr : diskRemove r2.disk c.Path with
              | mk e? d2 =>
                  rw [hdr] at h
                  cases e? with
                  | some e2 =>
                      dsimp only [] at h
                      injection h with h1
                      rw [← h1] at hok
                      cases hok
                  | none =>
                      dsimp only [] at h
                      injection h with h1
                      rw [← h1]

/-- On a successful result whose target had refcount 1 and a newer neighbour,
the target is destroyed and the cascade continued into the newer neighbour:
either the neighbour survives, decremented by one, at the head of the
remaining segment, or it was itself destroyed and its id has disappeared. -/
theorem deleteRefRev_ok_cascade (rest : List FileJournalChunk)
    (c dn : FileJournalChunk) (d : Disk) (r : DelRes)
    (h : deleteRefRev c (dn :: rest) d = some r)
    (hc1 : c.refcount = 1) (hok : r.err = none) :
    r.destroyed = true ∧
      (r.seg = { dn with refcount := dn.refcount - 1 } :: rest ∨
        ∀ x ∈ r.seg, x.id ∈ rest.map (·.id)) := by
  refine ⟨deleteRefRev_one_ok_destroyed _ _ _ _ h hc1 hok, ?_⟩
  unfold deleteRefRev at h
  rw [if_neg (by omega), if_pos (by omega)] at h
  dsimp only [] at h
  cases hrr : deleteRefRev dn rest d with
  | none => rw [hrr] at h; cases h
  | some r2 =>
      rw [hrr] at h
      dsimp only [] at h
      cases he2 : r2.err with
      | some e2 =>
          rw [he2] at h
          dsimp only [] at h
          injection h with h1
          rw [← h1] at hok
          cases hok
      | none =>
          rw [he2] at h
          dsimp only [] at h
          cases hdr : diskRemove r2.disk c.Path with
          | mk e? d2 =>
              rw [hdr] at h
              cases e? with
              | some e2 =>
                  dsimp only [] at h
                  injection h with h1
                  rw [← h1] at hok
                  cases hok
              | none =>
                  dsimp only [] at h
                  injection h with h1
                  rw [← h1]
                  by_cases hlt : dn.refcount - 1 < 0
                  · exfalso
                    unfold deleteRefRev at hrr
                    rw [if_pos hlt] at hrr
                    cases hrr
                  · by_cases hdn1 : dn.refcount = 1
                    · right
                      intro x hx
                      have hd2 := deleteRefRev_one_ok_destroyed rest dn d r2 hrr hdn1 he2
                      have hsub2 := deleteRefRev_destroyed_ids rest dn d r2 hrr hd2
                      exact hsub2.subset (List.mem_map_of_mem (·.id) hx)
                    · left
                      unfold deleteRefRev at hrr
                      rw [if_neg hlt, if_neg (by omega)] at hrr
                      injection hrr with h2
                      rw [← h2]

/-- Claim C3 (amended): when `delete_ref(chunk)` decrements the refcount to
exactly zero, the recursive call is made on the chunk's **newer**-direction
neighbour (the source's `chunk.head.prev`), not the older-direction one.
Older chunks are never touched by the call; on success the newer neighbour is
decremented by one or destroyed by the continued cascade; and if the
recursion or the file removal returns an error, the original decrement is
undone — the chunk stays linked with its original refcount and is not
destroyed. -/
theorem C3_amended (j : FileJournal) (d : Disk) (a0 : List FileJournalChunk)
    (dn c : FileJournalChunk) (b : List FileJournalChunk)
    (err : Option String) (j' : FileJournal) (d' : Disk) (destroyed : Bool)
    (hl : j.chunks = (a0 ++ [dn]) ++ c :: b)
    (hids : (j.chunks.map (·.id)).Nodup)
    (hc1 : c.refcount = 1)
    (hres : deleteRef j d c.id = some (err, j', d', destroyed)) :
    (∀ x ∈ b, findChunk j'.chunks x.id = some x) ∧
    (∀ e, err = some e → destroyed = false ∧ findChunk j'.chunks c.id = some c) ∧
    (err = none → destroyed = true ∧
      (findChunk j'.chunks dn.id = none ∨
        findChunk j'.chunks dn.id = some { dn with refcount := dn.refcount - 1 })) := by
  -- id bookkeeping
  have hndl := hids
  rw [hl, List.map_append] at hndl
  have hdisjAcb := List.disjoint_of_nodup_append hndl
  have hndA : ((a0 ++ [dn]).map (·.id)).Nodup := List.Nodup.of_append_left hndl
  have hndcb : ((c :: b).map (·.id)).Nodup := List.Nodup.of_append_right hndl
  have hca : ∀ x ∈ a0 ++ [dn], x.id ≠ c.id := by
    intro x hx he
    exact hdisjAcb (List.mem_map_of_mem (·.id) hx) (by simp [he])
  have hcb : ∀ x ∈ b, c.id ≠ x.id := by
    intro x hx he
    simp only [List.map_cons, List.nodup_cons] at hndcb
    exact hndcb.1 (he ▸ List.mem_map_of_mem (·.id) hx)
  have hndb : (b.map (·.id)).Nodup := by
    simp only [List.map_cons, List.nodup_cons] at hndcb
    exact hndcb.2
  have hAb : ∀ x ∈ a0 ++ [dn], ∀ y ∈ b, x.id ≠ y.id := by
    intro x hx y hy he
    exact hdisjAcb (List.mem_map_of_mem (·.id) hx)
      (by simp only [List.map_cons, List.mem_cons]; right
          exact he ▸ List.mem_map_of_mem (·.id) hy)
  have hA0dn : ∀ x ∈ a0, x.id ≠ dn.id := by
    intro x hx he
    rw [List.map_append] at hndA
    have hd2 := List.disjoint_of_nodup_append hndA
    exact hd2 (List.mem_map_of_mem (·.id) hx) (by simp [he])
  -- reduce deleteRef
  unfold deleteRef at hres
  rw [hl, splitAtId_of_append (a0 ++ [dn]) c b hca] at hres
  dsimp only [] at hres
  rw [show (a0 ++ [dn]).reverse = dn :: a0.reverse by simp] at hres
  cases hrr : deleteRefRev c (dn :: a0.reverse) d with
  | none => rw [hrr] at hres; cases hres
  | some r =>
      rw [hrr] at hres
      dsimp only [] at hres
      injection hres with hres1
      simp only [Prod.mk.injEq] at hres1
      obtain ⟨herr, hj'eq, hd'eq, hdeseq⟩ := hres1
      have hj' : j' = { j with chunks := r.seg.reverse ++ b } := hj'eq.symm
      have hdes : destroyed = r.destroyed := hdeseq.symm
      have herr' : err = r.err := herr.symm
      have hsubseg := deleteRefRev_ids_sublist (dn :: a0.reverse) c d r hrr
      have hsegA : ∀ y ∈ r.seg, y.id = c.id ∨ y.id ∈ (a0 ++ [dn]).map (·.id) := by
        intro y hy
        have := hsubseg.subset (List.mem_map_of_mem (·.id) hy)
        simp only [List.map_cons, List.mem_cons] at this
        rcases this with h | h
        · left; exact h
        · right
          rcases h with h | h
          · simp [h]
          · rw [List.map_reverse] at h
            have := List.mem_reverse.mp h
            simp only [List.map_append, List.mem_append]
            left; exact this
      refine ⟨?_, ?_, ?_⟩
      · -- older-direction chunks untouched
        intro x hx
        rw [hj']
        rw [findChunk_append_left]
        · exact findChunk_of_nodup_mem b x hndb hx
        · intro y hy he
          have hy' : y ∈ r.seg := List.mem_reverse.mp hy
          rcases hsegA y hy' with h | h
          · exact hcb x hx (by rw [← h, he])
          · obtain ⟨z, hz, hzid⟩ := List.mem_map.mp h
            exact hAb z hz x hx (by rw [hzid, he])
      · -- error: undo, chunk not destroyed
        intro e he
        rw [herr'] at he
        obtain ⟨hdf, t, hseg, htids⟩ := deleteRefRev_err _ _ _ _ _ hrr he
        refine ⟨by rw [hdes, hdf], ?_⟩
        rw [hj', hseg]
        simp only [List.reverse_cons]
        rw [List.append_assoc]
        rw [findChunk_append_left]
        · exact findChunk_cons_self c b
        · intro y hy he2
          have hy' : y ∈ t := List.mem_reverse.mp hy
          have : y.id ∈ (dn :: a0.reverse).map (·.id) :=
            htids.subset (List.mem_map_of_mem (·.id) hy')
          simp only [List.map_cons, List.mem_cons] at this
          rcases this with h | h
          · exact hca dn (by simp) (by rw [← h, he2])
          · rw [List.map_reverse] at h
            have hm := List.mem_reverse.mp h
            obtain ⟨z, hz, hzid⟩ := List.mem_map.mp hm
            exact hca z (by simp [hz]) (by rw [hzid, he2])
      · -- success: the newer neighbour was decremented or destroyed
        intro he
        rw [herr'] at he
        obtain ⟨hdt, hcase⟩ := deleteRefRev_ok_cascade a0.reverse c dn d r hrr hc1 he
        refine ⟨by rw [hdes, hdt], ?_⟩
        rcases hcase with hseg | hgone
        · right
          rw [hj', hseg]
          simp only [List.reverse_cons, List.reverse_reverse]
          rw [List.append_assoc]
          rw [findChunk_append_left _ _ _ (fun x hx he2 => hA0dn x hx he2)]
          exact findChunk_cons_self { dn with refcount := dn.refcount - 1 } b
        · left
          rw [hj']
          apply findChunk_eq_none
          intro x hx he2
          rcases List.mem_append.mp hx with h | h
          · have hx' : x ∈ r.seg := List.mem_reverse.mp h
            have := hgone x hx'
            rw [List.map_reverse] at this
            have hm := List.mem_reverse.mp this
            obtain ⟨z, hz, hzid⟩ := List.mem_map.mp hm
            exact hA0dn z hz (by rw [hzid, he2])
          · exact hAb dn (by simp) x h he2.symm

def c3N : FileJournalChunk := ⟨2, ['n'], JournalFileType.Rest, [], 0, [], 5⟩

def c3M : FileJournalChunk := ⟨1, ['m'], JournalFileType.Rest, [], 0, [], 1⟩

def c3O : FileJournalChunk := ⟨0, ['o'], JournalFileType.Rest, [], 0, [], 5⟩

def c3J : FileJournal := ⟨['k'], [c3N, c3M, c3O], none, 0, 3⟩

def c3D : Disk := ⟨[(['m'], [7])], []⟩

/-- Claim C3 counterexample: `deleteRef` on the middle chunk (refcount 1,
older neighbour `c3O` with refcount 5, newer neighbour `c3N` with refcount 5)
succeeds with no error — and the **older** neighbour's refcount is untouched
(still 5) while the **newer** neighbour was decremented to 4.  Had the
recursion been on the older-direction neighbour as the claim states, `c3O`
would have ended at refcount 4. -/
theorem C3_counterexample :
    deleteRef c3J c3D c3M.id =
      some (none,
        ⟨['k'], [⟨2, ['n'], JournalFileType.Rest, [], 0, [], 4⟩, c3O], none, 0, 3⟩,
        ⟨[], []⟩, true) := by decide

theorem C3_witness :
    (c3J.chunks = ([] ++ [c3N]) ++ c3M :: [c3O] ∧
      ((c3J.chunks.map (·.id)).Nodup) ∧
      c3M.refcount = 1 ∧
      deleteRef c3J c3D c3M.id =
        some (none,
          ⟨['k'], [⟨2, ['n'], JournalFileType.Rest, [], 0, [], 4⟩, c3O], none, 0, 3⟩,
          ⟨[], []⟩, true)) ∧
    ((∀ x ∈ [c3O], findChunk
        (⟨['k'], [⟨2, ['n'], JournalFileType.Rest, [], 0, [], 4⟩, c3O], none, 0, 3⟩ :
          FileJournal).chunks x.id = some x) ∧
      (∀ e, (none : Option String) = some e → (true : Bool) = false ∧
        findChunk (⟨['k'], [⟨2, ['n'], JournalFileType.Rest, [], 0, [], 4⟩, c3O],
          none, 0, 3⟩ : FileJournal).chunks c3M.id = some c3M) ∧
      ((none : Option String) = none → (true : Bool) = true ∧
        (findChunk (⟨['k'], [⟨2, ['n'], JournalFileType.Rest, [], 0, [], 4⟩, c3O],
            none, 0, 3⟩ : FileJournal).chunks c3N.id = none ∨
          findChunk (⟨['k'], [⟨2, ['n'], JournalFileType.Rest, [], 0, [], 4⟩, c3O],
            none, 0, 3⟩ : FileJournal).chunks c3N.id =
            some { c3N with refcount := c3N.refcount - 1 }))) :=
  ⟨⟨by decide, by decide, by decide, by decide⟩,
    C3_amended c3J c3D [] c3N c3M [c3O] none
      ⟨['k'], [⟨2, ['n'], JournalFileType.Rest, [], 0, [], 4⟩, c3O], none, 0, 3⟩
      ⟨[], []⟩ true (by decide) (by decide) (by decide) (by decide)⟩

/-! ## Claim C4: a linked chunk without a file after a failed roll-over -/

def c4Cfg : GroupConfig := ⟨['j', '.'], ['.', 'l'], 3⟩

def c4Trace : List (Env × Bytes) := [(⟨1, 0⟩, [1, 2]), (⟨2, 0⟩, [3, 4])]

/-- The chunk the failed roll-over leaves linked: the freshly created head
whose file has been removed again. -/
def c4Hd : FileJournalChunk :=
  ⟨1, ['j', '.', 's', '.', 'b', '.', 'x', 'x', '.', '.', 'l'], JournalFileType.Head,
   ['x', 'x', '.'], 0, ['s', '.', 'b', '.', 'x', 'x', '.'], 2⟩

def c4J : FileJournal :=
  ⟨['s'],
   [c4Hd,
    ⟨0, ['j', '.', 's', '.', 'b', '.', 'x', '.', '.', 'l'], JournalFileType.Head,
     ['x', '.'], 0, ['s', '.', 'b', '.', 'x', '.'], 2⟩],
   some 0, 2, 2⟩

def c4D : Disk := ⟨[(['j', '.', 's', '.', 'b', '.', 'x', '.', '.', 'l'], [1, 2])], []⟩

/-- Claim C4 (demonstration of the violating reachable state): starting from
a fresh journal on an empty disk, one write creates the first chunk; a second
write rolls over, creates the new head file, and then the rename of the old
head fails (the environment's fourth syscall fault).  `newChunk` removes the
new head's file and returns the error — but leaves the new chunk **linked**:
in the error state returned by `Write`, the head of the chunk list (`c4Hd`)
has no file on disk at its path, violating the invariant the claim states for
all reachable states including error states. -/
theorem C4_linked_chunk_without_file :
    runWrites c4Cfg c4Trace (freshJournal ['s']) ⟨[], [false, false, false, true]⟩ =
      some (some "rename error", c4J, c4D) ∧
    c4J.chunks.head? = some c4Hd ∧
    c4Hd ∈ c4J.chunks ∧
    fsGet c4D.files c4Hd.Path = none :=
  ⟨by decide, by decide, by decide, by decide⟩

/-! ## Write and roll-over, functionally (claims C7 and C1) -/

def headPathOf (cfg : GroupConfig) (k : Name) (env : Env) : Name :=
  cfg.pathPfx ++ (BuildJournalPath k JournalFileType.Head env.now env.nonce).VariablePortion
    ++ cfg.pathSfx

def restPathOf (cfg : GroupConfig) (k : Name) (ts : Name) : Name :=
  cfg.pathPfx ++ BuildJournalPathWithTSuffix k JournalFileType.Rest ts ++ cfg.pathSfx

/-- The key replacement a successful `os.Rename` performs on the file table. -/
def rnKey (src dst : Name) (e : Name × Bytes) : Name × Bytes :=
  if e.1 = src then (dst, e.2) else e

theorem fsGet_none_forall (fs : List (Name × Bytes)) (p : Name)
    (h : fsGet fs p = none) : ∀ e ∈ fs, e.1 ≠ p := by
  induction fs with
  | nil => intro e he; cases he
  | cons e r ih =>
      intro x hx
      simp only [fsGet] at h
      by_cases he : e.1 = p
      · rw [if_pos he] at h; cases h
      · rw [if_neg he] at h
        rcases List.mem_cons.mp hx with h2 | h2
        · rw [h2]; exact he
        · exact ih h x h2

theorem fsRemove_absent (fs : List (Name × Bytes)) (p : Name)
    (h : fsGet fs p = none) : fsRemove fs p = fs := by
  induction fs with
  | nil => rfl
  | cons e r ih =>
      simp only [fsGet] at h
      by_cases he : e.1 = p
      · rw [if_pos he] at h; cases h
      · rw [if_neg he] at h
        simp only [fsRemove]
        rw [if_neg he, ih h]

theorem fsSet_same (fs : List (Name × Bytes)) (p : Name) (v : Bytes)
    (h : fsGet fs p = some v) : fsSet fs p v = fs := by
  induction fs with
  | nil => cases h
  | cons e r ih =>
      simp only [fsGet] at h
      simp only [fsSet]
      by_cases he : e.1 = p
      · rw [if_pos he] at h
        rw [if_pos he]
        injection h with hv
        rw [← he, ← hv]
      · rw [if_neg he] at h
        rw [if_neg he, ih h]

theorem fsGet_append_none (a b : List (Name × Bytes)) (p : Name)
    (h : fsGet a p = none) : fsGet (a ++ b) p = fsGet b p := by
  induction a with
  | nil => rfl
  | cons e r ih =>
      simp only [fsGet] at h ⊢
      by_cases he : e.1 = p
      · rw [if_pos he] at h; cases h
      · rw [if_neg he] at h
        rw [if_neg he]
        exact ih h

theorem fsGet_append_some (a b : List (Name × Bytes)) (p : Name) (v : Bytes)
    (h : fsGet a p = some v) : fsGet (a ++ b) p = some v := by
  induction a with
  | nil => cases h
  | cons e r ih =>
      simp only [fsGet] at h ⊢
      by_cases he : e.1 = p
      · rw [if_pos he] at h
        rw [if_pos he]
        exact h
      · rw [if_neg he] at h
        rw [if_neg he]
        exact ih h

theorem fsGet_map_rnKey_other (fs : List (Name × Bytes)) (src dst q : Name)
    (hqs : q ≠ src) (hqd : q ≠ dst) :
    fsGet (fs.map (rnKey src dst)) q = fsGet fs q := by
  induction fs with
  | nil => rfl
  | cons e r ih =>
      simp only [List.map_cons, fsGet, rnKey]
      by_cases he : e.1 = src
      · rw [if_pos he]
        dsimp only []
        rw [if_neg (fun h : dst = q => hqd h.symm),
          if_neg (fun h : e.1 = q => hqs ((he ▸ h : src = q).symm))]
        exact ih
      · rw [if_neg he]
        by_cases hq : e.1 = q
        · rw [if_pos hq, if_pos hq]
        · rw [if_neg hq, if_neg hq]
          exact ih

theorem fsGet_map_rnKey_dst (fs : List (Name × Bytes)) (src dst : Name) (v : Bytes)
    (hsrc : fsGet fs src = some v) (hdst : fsGet fs dst = none) (hne : src ≠ dst) :
    fsGet (fs.map (rnKey src dst)) dst = some v := by
  induction fs with
  | nil => cases hsrc
  | cons e r ih =>
      simp only [fsGet] at hsrc hdst
      simp only [List.map_cons, fsGet, rnKey]
      by_cases he : e.1 = src
      · rw [if_pos he] at hsrc
        rw [if_pos he]
        simpa using hsrc
      · rw [if_neg he] at hsrc
        rw [if_neg he]
        by_cases hd : e.1 = dst
        · rw [if_pos hd] at hdst; cases hdst
        · rw [if_neg hd] at hdst
          rw [if_neg hd]
          exact ih hsrc hdst

/-- `os.Rename` with an existing source, an absent destination and no fault:
it succeeds and performs exactly the in-place key replacement `rnKey`. -/
theorem diskRename_ok (fs : List (Name × Bytes)) (src dst : Name) (v : Bytes)
    (hsrc : fsGet fs src = some v) (hdst : fsGet fs dst = none) (hne : src ≠ dst) :
    diskRename ⟨fs, []⟩ src dst = (none, ⟨fs.map (rnKey src dst), []⟩) := by
  unfold diskRename popFault
  dsimp only []
  rw [if_neg (by simp)]
  rw [hsrc]
  dsimp only []
  rw [if_neg hne, fsRemove_absent fs dst hdst, fsSet_same fs src v hsrc]
  rfl

theorem fsSet_append_last (a : List (Name × Bytes)) (p : Name) (v w : Bytes)
    (h : fsGet a p = none) :
    fsSet (a ++ [(p, v)]) p w = a ++ [(p, w)] := by
  induction a with
  | nil => simp [fsSet]
  | cons e r ih =>
      simp only [fsGet] at h
      by_cases he : e.1 = p
      · rw [if_pos he] at h; cases h
      · rw [if_neg he] at h
        simp only [List.cons_append, fsSet]
        rw [if_neg he]
        simp only [List.append_eq]
        rw [ih h]

theorem findChunk_cons_ne (x : FileJournalChunk) (l : List FileJournalChunk)
    (cid : Nat) (h : x.id ≠ cid) : findChunk (x :: l) cid = findChunk l cid := by
  have hx : decide (x.id = cid) = false := by simpa using h
  simp only [findChunk]
  simp only [List.find?_cons, hx]

theorem headPath_ne_restPath (cfg : GroupConfig) (k : Name) (env : Env) (ts : Name) :
    headPathOf cfg k env ≠ restPathOf cfg k ts := by
  intro h
  unfold headPathOf restPathOf BuildJournalPath BuildJournalPathWithTSuffix at h
  dsimp only [] at h
  have h1 := List.append_cancel_right h
  have h2 := List.append_cancel_left h1
  rw [List.append_assoc, List.append_assoc] at h2
  have h3 := List.append_cancel_left h2
  simp [roleChar] at h3

/-! ## The roll-over path (`FileJournal.newChunk`) in closed form -/

/-- The chunk `newChunk` links at the newest end: fresh id, `Head` role, the
freshly encoded path, refcount 2 (list anchor plus writer reference); the
source leaves `Timestamp` at its zero value here. -/
def freshHeadChunk (cfg : GroupConfig) (env : Env) (j : FileJournal) : FileJournalChunk :=
  { id := j.nextId, Path := headPathOf cfg j.key env, ftype := JournalFileType.Head,
    TSuffix := (BuildJournalPath j.key JournalFileType.Head env.now env.nonce).TSuffix,
    Timestamp := 0,
    UniqueId := (BuildJournalPath j.key JournalFileType.Head env.now env.nonce).UniqueId,
    refcount := 2 }

theorem splitAtId_head2 (x h0 : FileJournalChunk) (l : List FileJournalChunk) (np : Name)
    (hx : x.id ≠ h0.id) :
    splitAtId (x :: { h0 with ftype := JournalFileType.Rest, Path := np } :: l) h0.id =
      some ([x], { h0 with ftype := JournalFileType.Rest, Path := np }, l) := by
  simp only [splitAtId]
  rw [if_neg hx, if_pos trivial]

theorem finalize_map_eq (x h0 : FileJournalChunk) (l : List FileJournalChunk) (np : Name)
    (hx : x.id ≠ h0.id) (hl : ∀ c ∈ l, c.id ≠ h0.id) :
    (x :: h0 :: l).map (fun c => if c.id = h0.id
        then { c with ftype := JournalFileType.Rest, Path := np } else c) =
      x :: { h0 with ftype := JournalFileType.Rest, Path := np } :: l := by
  have hmap : l.map (fun c => if c.id = h0.id
      then { c with ftype := JournalFileType.Rest, Path := np } else c) = l := by
    induction l with
    | nil => rfl
    | cons a r ih =>
        simp only [List.map_cons]
        rw [if_neg (hl a (by simp))]
        rw [ih (fun c hc => hl c (by simp [hc]))]
  simp only [List.map_cons]
  rw [if_neg hx, if_pos trivial, hmap]

theorem deleteRefRev_live (c : FileJournalChunk) (restRev : List FileJournalChunk)
    (d : Disk) (h : 2 ≤ c.refcount) :
    deleteRefRev c restRev d =
      some ⟨{ c with refcount := c.refcount - 1 } :: restRev, d, none, false⟩ := by
  unfold deleteRefRev
  rw [if_neg (by omega), if_neg (by omega)]

theorem rn_files_eq (fs : List (Name × Bytes)) (src hp rp : Name) (v : Bytes)
    (h : hp ≠ src) :
    (fs ++ [(hp, v)]).map (rnKey src rp) = fs.map (rnKey src rp) ++ [(hp, v)] := by
  rw [List.map_append]
  simp [rnKey, h]

/-- `FileJournal.newChunk` on a journal whose newest chunk is `h0` (refcount at
least 2), with the fresh Head path and the finalized Rest path unoccupied and
no injected faults: it succeeds, links the fresh Head chunk at the newest end,
turns `h0` into a `Rest` chunk at its renamed path with the writer reference
released, installs the writer on the fresh chunk at position 0, and the file
table is renamed in place and gains the new empty head file. -/
theorem newChunk_spec (cfg : GroupConfig) (env : Env) (j : FileJournal)
    (fs : List (Name × Bytes)) (h0 : FileJournalChunk) (trest : List FileJournalChunk)
    (v : Bytes)
    (hch : j.chunks = h0 :: trest)
    (hlt : ∀ c ∈ j.chunks, c.id < j.nextId)
    (htr : ∀ c ∈ trest, c.id ≠ h0.id)
    (hrc : 2 ≤ h0.refcount)
    (hfile : fsGet fs h0.Path = some v)
    (hhp : fsGet fs (headPathOf cfg j.key env) = none)
    (hrp : fsGet fs (restPathOf cfg j.key h0.TSuffix) = none) :
    newChunk cfg env j ⟨fs, []⟩ =
      some (none,
        { key := j.key,
          chunks := freshHeadChunk cfg env j ::
            { h0 with ftype := JournalFileType.Rest,
                      Path := restPathOf cfg j.key h0.TSuffix,
                      refcount := h0.refcount - 1 } :: trest,
          writer := some j.nextId, position := 0, nextId := j.nextId + 1 },
        ⟨(fs ++ [(headPathOf cfg j.key env, [])]).map
            (rnKey h0.Path (restPathOf cfg j.key h0.TSuffix)), []⟩,
        some j.nextId) := by
  have hne_rp : h0.Path ≠ restPathOf cfg j.key h0.TSuffix := by
    intro he
    rw [he, hrp] at hfile
    cases hfile
  have hhr : headPathOf cfg j.key env ≠ restPathOf cfg j.key h0.TSuffix :=
    headPath_ne_restPath cfg j.key env h0.TSuffix
  have hh0mem : h0 ∈ j.chunks := by
    rw [hch]
    exact List.mem_cons_self _ _
  have hidne : j.nextId ≠ h0.id := by
    have := hlt h0 hh0mem
    omega
  have hsrc2 : fsGet (fs ++ [(headPathOf cfg j.key env, ([] : Bytes))]) h0.Path = some v :=
    fsGet_append_some _ _ _ _ hfile
  have hdst2 : fsGet (fs ++ [(headPathOf cfg j.key env, ([] : Bytes))])
      (restPathOf cfg j.key h0.TSuffix) = none := by
    rw [fsGet_append_none _ _ _ hrp]
    simp only [fsGet]
    rw [if_neg hhr]
  unfold newChunk
  dsimp only []
  rw [hch]
  rw [show cfg.pathPfx ++ (BuildJournalPath j.key JournalFileType.Head env.now
      env.nonce).VariablePortion ++ cfg.pathSfx = headPathOf cfg j.key env from rfl]
  rw [show ({
      id := j.nextId, Path := headPathOf cfg j.key env,
      ftype := JournalFileType.Head,
      TSuffix := (BuildJournalPath j.key JournalFileType.Head env.now env.nonce).TSuffix,
      Timestamp := 0,
      UniqueId := (BuildJournalPath j.key JournalFileType.Head env.now env.nonce).UniqueId,
      refcount := 2 } : FileJournalChunk) = freshHeadChunk cfg env j from rfl]
  rw [show diskCreateExcl ⟨fs, []⟩ (headPathOf cfg j.key env) =
      (none, ⟨fs ++ [(headPathOf cfg j.key env, [])], []⟩) from by
    unfold diskCreateExcl popFault
    dsimp only []
    rw [if_neg (by simp), hhp]]
  dsimp only [List.head?]
  unfold finalizeChunk
  dsimp only []
  rw [show findChunk (freshHeadChunk cfg env j :: h0 :: trest) h0.id = some h0 from by
    rw [findChunk_cons_ne _ _ _ (show (freshHeadChunk cfg env j).id ≠ h0.id from hidne)]
    exact findChunk_cons_self h0 trest]
  dsimp only []
  rw [show cfg.pathPfx ++ BuildJournalPathWithTSuffix j.key JournalFileType.Rest
      h0.TSuffix ++ cfg.pathSfx = restPathOf cfg j.key h0.TSuffix from rfl]
  rw [diskRename_ok _ h0.Path (restPathOf cfg j.key h0.TSuffix) v hsrc2 hdst2 hne_rp]
  dsimp only []
  rw [finalize_map_eq _ _ _ _ (show (freshHeadChunk cfg env j).id ≠ h0.id from hidne) htr]
  unfold deleteRef
  dsimp only []
  rw [splitAtId_head2 _ _ _ _ (show (freshHeadChunk cfg env j).id ≠ h0.id from hidne)]
  dsimp only []
  rw [show [freshHeadChunk cfg env j].reverse = [freshHeadChunk cfg env j] from rfl]
  rw [deleteRefRev_live _ _ _
    (show 2 ≤ ({ h0 with ftype := JournalFileType.Rest, Path := restPathOf cfg j.key h0.TSuffix } : FileJournalChunk).refcount from hrc)]
  dsimp only []
  simp only [List.reverse_cons, List.reverse_nil, List.nil_append, List.cons_append]

/-- `newChunk` on an empty journal (the very first write): create the head
file, link the chunk, install the writer; no finalize and no cascade. -/
theorem newChunk_empty_spec (cfg : GroupConfig) (env : Env) (j : FileJournal)
    (fs : List (Name × Bytes))
    (hch : j.chunks = [])
    (hhp : fsGet fs (headPathOf cfg j.key env) = none) :
    newChunk cfg env j ⟨fs, []⟩ =
      some (none,
        { key := j.key, chunks := [freshHeadChunk cfg env j],
          writer := some j.nextId, position := 0, nextId := j.nextId + 1 },
        ⟨fs ++ [(headPathOf cfg j.key env, [])], []⟩,
        some j.nextId) := by
  unfold newChunk
  dsimp only []
  rw [hch]
  rw [show cfg.pathPfx ++ (BuildJournalPath j.key JournalFileType.Head env.now
      env.nonce).VariablePortion ++ cfg.pathSfx = headPathOf cfg j.key env from rfl]
  rw [show ({
      id := j.nextId, Path := headPathOf cfg j.key env,
      ftype := JournalFileType.Head,
      TSuffix := (BuildJournalPath j.key JournalFileType.Head env.now env.nonce).TSuffix,
      Timestamp := 0,
      UniqueId := (BuildJournalPath j.key JournalFileType.Head env.now env.nonce).UniqueId,
      refcount := 2 } : FileJournalChunk) = freshHeadChunk cfg env j from rfl]
  rw [show diskCreateExcl ⟨fs, []⟩ (headPathOf cfg j.key env) =
      (none, ⟨fs ++ [(headPathOf cfg j.key env, [])], []⟩) from by
    unfold diskCreateExcl popFault
    dsimp only []
    rw [if_neg (by simp), hhp]]
  dsimp only [List.head?]

/-- `FileJournal.Write` when the size policy forces a roll-over
(`maxSize - position < len(data)` with a writer open): the new head chunk is
created *before* the bytes are written, and the whole record then lands in the
fresh chunk's file, which afterwards contains exactly `data`. -/
theorem write_rollover_spec (cfg : GroupConfig) (env : Env) (j : FileJournal)
    (fs : List (Name × Bytes)) (h0 : FileJournalChunk) (trest : List FileJournalChunk)
    (v : Bytes) (data : Bytes) (wid : Nat)
    (hch : j.chunks = h0 :: trest)
    (hw : j.writer = some wid)
    (hlt : ∀ c ∈ j.chunks, c.id < j.nextId)
    (htr : ∀ c ∈ trest, c.id ≠ h0.id)
    (hrc : 2 ≤ h0.refcount)
    (hfile : fsGet fs h0.Path = some v)
    (hhp : fsGet fs (headPathOf cfg j.key env) = none)
    (hrp : fsGet fs (restPathOf cfg j.key h0.TSuffix) = none)
    (hroll : cfg.maxSize - j.position < (data.length : Int)) :
    fjWrite cfg env j ⟨fs, []⟩ data =
      some (none,
        { key := j.key,
          chunks := freshHeadChunk cfg env j ::
            { h0 with ftype := JournalFileType.Rest,
                      Path := restPathOf cfg j.key h0.TSuffix,
                      refcount := h0.refcount - 1 } :: trest,
          writer := some j.nextId, position := (data.length : Int),
          nextId := j.nextId + 1 },
        ⟨fs.map (rnKey h0.Path (restPathOf cfg j.key h0.TSuffix)) ++
            [(headPathOf cfg j.key env, data)], []⟩) := by
  have hne_hp : h0.Path ≠ headPathOf cfg j.key env := by
    intro he
    rw [he, hhp] at hfile
    cases hfile
  have hhr : headPathOf cfg j.key env ≠ restPathOf cfg j.key h0.TSuffix :=
    headPath_ne_restPath cfg j.key env h0.TSuffix
  have hmapnone : fsGet (fs.map (rnKey h0.Path (restPathOf cfg j.key h0.TSuffix)))
      (headPathOf cfg j.key env) = none := by
    rw [fsGet_map_rnKey_other _ _ _ _ (fun he => hne_hp he.symm) hhr]
    exact hhp
  unfold fjWrite
  dsimp only []
  rw [hw]
  dsimp only []
  rw [if_pos hroll]
  rw [newChunk_spec cfg env j fs h0 trest v hch hlt htr hrc hfile hhp hrp]
  dsimp only []
  rw [show findChunk (freshHeadChunk cfg env j ::
      { h0 with ftype := JournalFileType.Rest, Path := restPathOf cfg j.key h0.TSuffix, refcount := h0.refcount - 1 } :: trest)
      j.nextId = some (freshHeadChunk cfg env j) from findChunk_cons_self _ _]
  dsimp only []
  rw [rn_files_eq fs h0.Path (headPathOf cfg j.key env)
      (restPathOf cfg j.key h0.TSuffix) [] (fun he => hne_hp he.symm)]
  rw [show (freshHeadChunk cfg env j).Path = headPathOf cfg j.key env from rfl]
  rw [show diskAppend ⟨fs.map (rnKey h0.Path (restPathOf cfg j.key h0.TSuffix)) ++
      [(headPathOf cfg j.key env, [])], []⟩ (headPathOf cfg j.key env) data =
      (none, ⟨fs.map (rnKey h0.Path (restPathOf cfg j.key h0.TSuffix)) ++
        [(headPathOf cfg j.key env, data)], []⟩) from by
    unfold diskAppend popFault
    dsimp only []
    rw [if_neg (by simp)]
    rw [show fsGet (fs.map (rnKey h0.Path (restPathOf cfg j.key h0.TSuffix)) ++
        [(headPathOf cfg j.key env, [])]) (headPathOf cfg j.key env) = some [] from by
      rw [fsGet_append_none _ _ _ hmapnone]
      simp [fsGet]]
    dsimp only []
    rw [List.nil_append]
    rw [fsSet_append_last _ _ _ _ hmapnone]]
  dsimp only []
  rw [zero_add]

/-- `FileJournal.Write` when the record fits
(`len(data) ≤ maxSize - position` with a writer open on the newest chunk):
no chunk is created or removed — the chunk list is untouched — and the bytes
are appended to the current head chunk's file in one piece. -/
theorem write_fits_spec (cfg : GroupConfig) (env : Env) (j : FileJournal)
    (fs : List (Name × Bytes)) (h0 : FileJournalChunk) (trest : List FileJournalChunk)
    (v : Bytes) (data : Bytes)
    (hch : j.chunks = h0 :: trest)
    (hw : j.writer = some h0.id)
    (hfile : fsGet fs h0.Path = some v)
    (hfits : ¬ cfg.maxSize - j.position < (data.length : Int)) :
    fjWrite cfg env j ⟨fs, []⟩ data =
      some (none, { j with position := j.position + (data.length : Int) },
        ⟨fsSet fs h0.Path (v ++ data), []⟩) := by
  unfold fjWrite
  dsimp only []
  rw [hw]
  dsimp only []
  rw [if_neg hfits]
  dsimp only []
  rw [hw]
  dsimp only []
  rw [hch, findChunk_cons_self h0 trest]
  dsimp only []
  rw [show diskAppend ⟨fs, []⟩ h0.Path data =
      (none, ⟨fsSet fs h0.Path (v ++ data), []⟩) from by
    unfold diskAppend popFault
    dsimp only []
    rw [if_neg (by simp), hfile]]

/-- `FileJournal.Write` on a fresh journal (no writer, no chunk): the first
chunk is created and the whole record is written into it. -/
theorem write_first_spec (cfg : GroupConfig) (env : Env) (j : FileJournal)
    (fs : List (Name × Bytes)) (data : Bytes)
    (hch : j.chunks = [])
    (hw : j.writer = none)
    (hhp : fsGet fs (headPathOf cfg j.key env) = none) :
    fjWrite cfg env j ⟨fs, []⟩ data =
      some (none,
        { key := j.key, chunks := [freshHeadChunk cfg env j],
          writer := some j.nextId, position := (data.length : Int),
          nextId := j.nextId + 1 },
        ⟨fs ++ [(headPathOf cfg j.key env, data)], []⟩) := by
  unfold fjWrite
  dsimp only []
  rw [hw]
  dsimp only []
  rw [hch]
  rw [if_pos (show (([] : List FileJournalChunk).head? = none) from rfl)]
  rw [newChunk_empty_spec cfg env j fs hch hhp]
  dsimp only []
  rw [show findChunk [freshHeadChunk cfg env j] j.nextId =
      some (freshHeadChunk cfg env j) from findChunk_cons_self _ _]
  dsimp only []
  rw [show (freshHeadChunk cfg env j).Path = headPathOf cfg j.key env from rfl]
  rw [show diskAppend ⟨fs ++ [(headPathOf cfg j.key env, [])], []⟩
      (headPathOf cfg j.key env) data =
      (none, ⟨fs ++ [(headPathOf cfg j.key env, data)], []⟩) from by
    unfold diskAppend popFault
    dsimp only []
    rw [if_neg (by simp)]
    rw [show fsGet (fs ++ [(headPathOf cfg j.key env, [])])
        (headPathOf cfg j.key env) = some [] from by
      rw [fsGet_append_none _ _ _ hhp]
      simp [fsGet]]
    dsimp only []
    rw [List.nil_append]
    rw [fsSet_append_last _ _ _ _ hhp]]
  dsimp only []
  rw [zero_add]

/-- Claim C7: `Write` applies its size policy before writing.  With a writer
open on the newest chunk `h0` and the steady-state invariant (fresh paths
unoccupied, ids below the allocator, head refcount ≥ 2, no injected faults):
if `position + len(data) > maxSize` a new head chunk is created first and the
whole record then lands in the fresh chunk's file, which afterwards contains
exactly `data` — a single write is never split, and a record larger than
`maxSize` (a special case) still goes whole into its own fresh chunk;
otherwise no chunk is created and the bytes are appended in one piece to the
current head chunk's file. -/
theorem C7_presize_rollover (cfg : GroupConfig) (env : Env) (j : FileJournal)
    (fs : List (Name × Bytes)) (h0 : FileJournalChunk) (trest : List FileJournalChunk)
    (v : Bytes) (data : Bytes)
    (hch : j.chunks = h0 :: trest)
    (hw : j.writer = some h0.id)
    (hlt : ∀ c ∈ j.chunks, c.id < j.nextId)
    (htr : ∀ c ∈ trest, c.id ≠ h0.id)
    (hrc : 2 ≤ h0.refcount)
    (hfile : fsGet fs h0.Path = some v)
    (hhp : fsGet fs (headPathOf cfg j.key env) = none)
    (hrp : fsGet fs (restPathOf cfg j.key h0.TSuffix) = none) :
    (cfg.maxSize < j.position + (data.length : Int) →
      fjWrite cfg env j ⟨fs, []⟩ data =
        some (none,
          { key := j.key,
            chunks := freshHeadChunk cfg env j ::
              { h0 with ftype := JournalFileType.Rest,
                        Path := restPathOf cfg j.key h0.TSuffix,
                        refcount := h0.refcount - 1 } :: trest,
            writer := some j.nextId, position := (data.length : Int),
            nextId := j.nextId + 1 },
          ⟨fs.map (rnKey h0.Path (restPathOf cfg j.key h0.TSuffix)) ++
              [(headPathOf cfg j.key env, data)], []⟩) ∧
      fsGet (fs.map (rnKey h0.Path (restPathOf cfg j.key h0.TSuffix)) ++
          [(headPathOf cfg j.key env, data)]) (freshHeadChunk cfg env j).Path =
        some data) ∧
    (j.position + (data.length : Int) ≤ cfg.maxSize →
      fjWrite cfg env j ⟨fs, []⟩ data =
        some (none, { j with position := j.position + (data.length : Int) },
          ⟨fsSet fs h0.Path (v ++ data), []⟩)) := by
  have hne_hp : h0.Path ≠ headPathOf cfg j.key env := by
    intro he
    rw [he, hhp] at hfile
    cases hfile
  have hhr : headPathOf cfg j.key env ≠ restPathOf cfg j.key h0.TSuffix :=
    headPath_ne_restPath cfg j.key env h0.TSuffix
  have hmapnone : fsGet (fs.map (rnKey h0.Path (restPathOf cfg j.key h0.TSuffix)))
      (headPathOf cfg j.key env) = none := by
    rw [fsGet_map_rnKey_other _ _ _ _ (fun he => hne_hp he.symm) hhr]
    exact hhp
  constructor
  · intro hgt
    constructor
    · exact write_rollover_spec cfg env j fs h0 trest v data h0.id hch hw hlt htr hrc
        hfile hhp hrp (by omega)
    · rw [show (freshHeadChunk cfg env j).Path = headPathOf cfg j.key env from rfl]
      rw [fsGet_append_none _ _ _ hmapnone]
      simp [fsGet]
  · intro hle
    exact write_fits_spec cfg env j fs h0 trest v data hch hw hfile (by omega)

def c7Cfg : GroupConfig := ⟨['j', '.'], ['.', 'l'], 3⟩

def c7Env : Env := ⟨1, 0⟩

def c7H0 : FileJournalChunk :=
  ⟨0, ['p', '0'], JournalFileType.Head, ['t', 's'], 0, [], 2⟩

def c7J : FileJournal := ⟨['s'], [c7H0], some 0, 2, 1⟩

def c7Fs : List (Name × Bytes) := [(['p', '0'], [9, 9])]

def c7JOut : FileJournal :=
  ⟨['s'],
   [⟨1, ['j', '.', 's', '.', 'b', '.', 'x', '.', '.', 'l'], JournalFileType.Head,
      ['x', '.'], 0, ['s', '.', 'b', '.', 'x', '.'], 2⟩,
    ⟨0, ['j', '.', 's', '.', 'q', '.', 't', 's', '.', 'l'], JournalFileType.Rest,
      ['t', 's'], 0, [], 1⟩],
   some 1, 2, 2⟩

def c7FsOut : List (Name × Bytes) :=
  [(['j', '.', 's', '.', 'q', '.', 't', 's', '.', 'l'], [9, 9]),
   (['j', '.', 's', '.', 'b', '.', 'x', '.', '.', 'l'], [1, 2])]

/-- Witness for C7: a journal with one full chunk (`maxSize` 3, position 2),
writing 2 more bytes; the pre-write size check rolls over and the whole
record lands in the fresh head chunk's file. -/
theorem C7_witness :
    (3 : Int) < 2 + (([1, 2] : Bytes).length : Int) ∧
    fjWrite c7Cfg c7Env c7J ⟨c7Fs, []⟩ [1, 2] = some (none, c7JOut, ⟨c7FsOut, []⟩) ∧
    fsGet c7FsOut (freshHeadChunk c7Cfg c7Env c7J).Path = some [1, 2] := by
  have h := (C7_presize_rollover c7Cfg c7Env c7J c7Fs c7H0 [] [9, 9] [1, 2]
    rfl rfl (by decide) (by decide) (by decide) (by decide) (by decide)
    (by decide)).1 (by decide)
  refine ⟨by decide, ?_, by decide⟩
  rw [h.1]
  decide

/-! ## Correctness of `sortChunksByTimestamp` -/

theorem mergeDesc_perm (a : List FileJournalChunk) :
    ∀ b, (mergeDesc a b).Perm (a ++ b) := by
  induction a with
  | nil => intro b; simp [mergeDesc]
  | cons x xs ihx =>
      intro b
      induction b with
      | nil => simp [mergeDesc]
      | cons y ys ihy =>
          simp only [mergeDesc]
          by_cases h : x.Timestamp < y.Timestamp
          · rw [if_pos h]
            exact (List.Perm.cons y ihy).trans List.perm_middle.symm
          · rw [if_neg h]
            exact List.Perm.cons x (ihx (y :: ys))

theorem mergeDesc_sorted (a : List FileJournalChunk) :
    ∀ b, List.Pairwise (fun u v => v.Timestamp ≤ u.Timestamp) a →
      List.Pairwise (fun u v => v.Timestamp ≤ u.Timestamp) b →
      List.Pairwise (fun u v => v.Timestamp ≤ u.Timestamp) (mergeDesc a b) := by
  induction a with
  | nil => intro b _ hb; simpa [mergeDesc] using hb
  | cons x xs ihx =>
      intro b
      induction b with
      | nil => intro ha _; simpa [mergeDesc] using ha
      | cons y ys ihy =>
          intro ha hb
          simp only [mergeDesc]
          by_cases h : x.Timestamp < y.Timestamp
          · rw [if_pos h]
            rw [List.pairwise_cons]
            constructor
            · intro z hz
              have hz' := (mergeDesc_perm (x :: xs) ys).mem_iff.mp hz
              rcases List.mem_append.mp hz' with h1 | h1
              · rcases List.mem_cons.mp h1 with h2 | h2
                · rw [h2]; exact le_of_lt h
                · exact le_trans ((List.pairwise_cons.mp ha).1 z h2) (le_of_lt h)
              · exact (List.pairwise_cons.mp hb).1 z h1
            · exact ihy ha (List.pairwise_cons.mp hb).2
          · rw [if_neg h]
            rw [List.pairwise_cons]
            constructor
            · intro z hz
              have hz' := (mergeDesc_perm xs (y :: ys)).mem_iff.mp hz
              rcases List.mem_append.mp hz' with h1 | h1
              · exact (List.pairwise_cons.mp ha).1 z h1
              · have hyx : y.Timestamp ≤ x.Timestamp := not_lt.mp h
                rcases List.mem_cons.mp h1 with h2 | h2
                · rw [h2]; exact hyx
                · exact le_trans ((List.pairwise_cons.mp hb).1 z h2) hyx
            · exact ihx (y :: ys) (List.pairwise_cons.mp ha).2 hb

theorem mergeDesc_length (a b : List FileJournalChunk) :
    (mergeDesc a b).length = a.length + b.length := by
  have := (mergeDesc_perm a b).length_eq
  simpa using this

/-- The list is partitioned into runs of `k`, each sorted in descending
timestamp order (the invariant of the bottom-up merge sort's outer loop). -/
def RunsDesc (k : Nat) (l : List FileJournalChunk) : Prop :=
  if k = 0 then True
  else
    match l with
    | [] => True
    | x :: xs =>
        List.Pairwise (fun u v => v.Timestamp ≤ u.Timestamp) ((x :: xs).take k) ∧
        RunsDesc k ((x :: xs).drop k)
termination_by l.length
decreasing_by
  simp only [List.length_drop, List.length_cons]
  omega

theorem RunsDesc_one (l : List FileJournalChunk) : RunsDesc 1 l := by
  induction l with
  | nil => simp [RunsDesc]
  | cons x xs ih =>
      rw [RunsDesc]
      rw [if_neg (by omega)]
      exact ⟨by simp, ih⟩

theorem RunsDesc_nil (k : Nat) : RunsDesc k [] := by
  rw [RunsDesc]
  by_cases h : k = 0
  · rw [if_pos h]; trivial
  · rw [if_neg h]; trivial

theorem RunsDesc_of_sorted (k : Nat) (l : List FileJournalChunk) (hk : k ≠ 0)
    (h : List.Pairwise (fun u v => v.Timestamp ≤ u.Timestamp) l) : RunsDesc k l := by
  have key : ∀ n (m : List FileJournalChunk), m.length ≤ n →
      List.Pairwise (fun u v => v.Timestamp ≤ u.Timestamp) m → RunsDesc k m := by
    intro n
    induction n with
    | zero =>
        intro m hm _
        have : m = [] := List.eq_nil_of_length_eq_zero (by omega)
        rw [this]; exact RunsDesc_nil k
    | succ n ih =>
        intro m hm hs
        match m with
        | [] => exact RunsDesc_nil k
        | x :: xs =>
            rw [RunsDesc, if_neg hk]
            refine ⟨hs.sublist (List.take_sublist _ _), ?_⟩
            have hdrop := hs.sublist (List.drop_sublist k (x :: xs))
            have : ((x :: xs).drop k).length ≤ n := by
              simp only [List.length_drop, List.length_cons]
              simp only [List.length_cons] at hm
              omega
            exact ih _ this hdrop
  exact key l.length l (le_refl _) h

theorem mergePassGo_perm (k : Nat) (hk : k ≠ 0) (l : List FileJournalChunk) :
    (mergePassGo k l).Perm l := by
  have key : ∀ n (m : List FileJournalChunk), m.length ≤ n → (mergePassGo k m).Perm m := by
    intro n
    induction n with
    | zero =>
        intro m hm
        have : m = [] := List.eq_nil_of_length_eq_zero (by omega)
        rw [this]
        rw [mergePassGo, if_neg hk]
    | succ n ih =>
        intro m hm
        match m with
        | [] => rw [mergePassGo, if_neg hk]
        | x :: xs =>
            rw [mergePassGo, if_neg hk]
            have hrec : (mergePassGo k (((x :: xs).drop k).drop k)).Perm
                (((x :: xs).drop k).drop k) := by
              apply ih
              simp only [List.length_drop, List.length_cons]
              simp only [List.length_cons] at hm
              omega
            have h1 : (mergeDesc ((x :: xs).take k) (((x :: xs).drop k).take k) ++
                mergePassGo k (((x :: xs).drop k).drop k)).Perm
                (((x :: xs).take k ++ ((x :: xs).drop k).take k) ++
                  ((x :: xs).drop k).drop k) :=
              List.Perm.append (mergeDesc_perm _ _) hrec
            have h2 : ((x :: xs).take k ++ ((x :: xs).drop k).take k) ++
                ((x :: xs).drop k).drop k = x :: xs := by
              rw [List.append_assoc, List.take_append_drop, List.take_append_drop]
            rw [h2] at h1
            exact h1
  exact key l.length l (le_refl _)

theorem RunsDesc_unfold (k : Nat) (hk : k ≠ 0) (l : List FileJournalChunk)
    (h : RunsDesc k l) :
    List.Pairwise (fun u v => v.Timestamp ≤ u.Timestamp) (l.take k) ∧
    RunsDesc k (l.drop k) := by
  match l with
  | [] =>
      refine ⟨by simp, ?_⟩
      rw [List.drop_nil]
      exact RunsDesc_nil k
  | x :: xs =>
      rw [RunsDesc, if_neg hk] at h
      exact h

theorem RunsDesc_intro (k : Nat) (hk : k ≠ 0) (l : List FileJournalChunk)
    (hsort : List.Pairwise (fun u v => v.Timestamp ≤ u.Timestamp) (l.take k))
    (hrec : RunsDesc k (l.drop k)) : RunsDesc k l := by
  match l with
  | [] => exact RunsDesc_nil k
  | x :: xs =>
      rw [RunsDesc, if_neg hk]
      exact ⟨hsort, hrec⟩

theorem mergePassGo_sorted_small (k : Nat) (hk : k ≠ 0) (l : List FileJournalChunk)
    (hr : RunsDesc k l) (hlen : l.length ≤ 2 * k) :
    List.Pairwise (fun u v => v.Timestamp ≤ u.Timestamp) (mergePassGo k l) := by
  cases l with
  | nil =>
      rw [mergePassGo, if_neg hk]
      exact List.Pairwise.nil
  | cons x xs =>
      have h1 := RunsDesc_unfold k hk _ hr
      have h2 := RunsDesc_unfold k hk _ h1.2
      rw [mergePassGo, if_neg hk]
      have hC : ((x :: xs).drop k).drop k = [] := by
        apply List.eq_nil_of_length_eq_zero
        simp only [List.length_drop, List.length_cons]
        simp only [List.length_cons] at hlen
        omega
      rw [hC, show mergePassGo k ([] : List FileJournalChunk) = [] from by
        rw [mergePassGo, if_neg hk], List.append_nil]
      exact mergeDesc_sorted _ _ h1.1 h2.1

theorem mergePass_runs (k : Nat) (hk : k ≠ 0) (l : List FileJournalChunk)
    (hr : RunsDesc k l) : RunsDesc (2 * k) (mergePassGo k l) := by
  have key : ∀ (n : Nat) (m : List FileJournalChunk), m.length ≤ n → RunsDesc k m →
      RunsDesc (2 * k) (mergePassGo k m) := by
    intro n
    induction n with
    | zero =>
        intro m hm _
        have : m = [] := List.eq_nil_of_length_eq_zero (by omega)
        rw [this, mergePassGo, if_neg hk]
        exact RunsDesc_nil _
    | succ n ih =>
        intro m hm hr
        by_cases hsmall : m.length ≤ 2 * k
        · exact RunsDesc_of_sorted _ _ (by omega) (mergePassGo_sorted_small k hk m hr hsmall)
        · cases m with
          | nil => simp at hsmall
          | cons x xs =>
              have h1 := RunsDesc_unfold k hk _ hr
              have h2 := RunsDesc_unfold k hk _ h1.2
              rw [mergePassGo, if_neg hk]
              have hM : (mergeDesc ((x :: xs).take k)
                  (((x :: xs).drop k).take k)).length = 2 * k := by
                rw [mergeDesc_length]
                simp only [List.length_take, List.length_drop, List.length_cons]
                simp only [List.length_cons] at hsmall
                omega
              apply RunsDesc_intro _ (by omega)
              · rw [List.take_left' hM]
                exact mergeDesc_sorted _ _ h1.1 h2.1
              · rw [List.drop_left' hM]
                apply ih
                · simp only [List.length_drop, List.length_cons]
                  simp only [List.length_cons] at hm
                  omega
                · exact h2.2
  exact key l.length l (le_refl _) hr

theorem sortGo_spec : ∀ (fuel k : Nat) (l : List FileJournalChunk), k ≠ 0 →
    RunsDesc k l → l.length ≤ 2 ^ fuel * k →
    List.Pairwise (fun u v => v.Timestamp ≤ u.Timestamp) (sortGo fuel k l) ∧
    (sortGo fuel k l).Perm l := by
  intro fuel
  induction fuel with
  | zero =>
      intro k l hk hr hlen
      simp only [sortGo]
      constructor
      · have h := (RunsDesc_unfold k hk l hr).1
        rw [List.take_of_length_le (by simpa using hlen)] at h
        exact h
      · exact List.Perm.refl l
  | succ fuel ih =>
      intro k l hk hr hlen
      simp only [sortGo]
      by_cases hsmall : l.length ≤ 2 * k
      · rw [if_pos hsmall]
        exact ⟨mergePassGo_sorted_small k hk l hr hsmall, mergePassGo_perm k hk l⟩
      · rw [if_neg hsmall]
        have hr' := mergePass_runs k hk l hr
        have hlen' : (mergePassGo k l).length ≤ 2 ^ fuel * (2 * k) := by
          rw [(mergePassGo_perm k hk l).length_eq]
          calc l.length ≤ 2 ^ (fuel + 1) * k := hlen
            _ = 2 ^ fuel * (2 * k) := by ring
        have h := ih (2 * k) (mergePassGo k l) (by omega) hr' hlen'
        exact ⟨h.1, h.2.trans (mergePassGo_perm k hk l)⟩

theorem sortChunks_spec (l : List FileJournalChunk) :
    List.Pairwise (fun u v => v.Timestamp ≤ u.Timestamp) (sortChunksByTimestamp l) ∧
    (sortChunksByTimestamp l).Perm l := by
  match l with
  | [] => exact ⟨List.Pairwise.nil, List.Perm.refl _⟩
  | x :: xs =>
      have hlen : (x :: xs).length ≤ 2 ^ ((x :: xs).length + 1) * 1 := by
        have h1 := Nat.lt_two_pow ((x :: xs).length)
        have h2 : (2 : Nat) ^ ((x :: xs).length) ≤ 2 ^ ((x :: xs).length + 1) :=
          Nat.pow_le_pow_right (by omega) (by omega)
        omega
      have h := sortGo_spec ((x :: xs).length + 1) 1 (x :: xs) (by omega)
        (RunsDesc_one _) hlen
      simpa only [sortChunksByTimestamp] using h

theorem eq_of_perm_sorted_strict (l tgt : List FileJournalChunk)
    (hperm : l.Perm tgt)
    (hl : List.Pairwise (fun u v => v.Timestamp ≤ u.Timestamp) l)
    (htgt : List.Pairwise (fun u v => v.Timestamp < u.Timestamp) tgt) : l = tgt := by
  haveI : IsAntisymm FileJournalChunk (fun u v => v.Timestamp < u.Timestamp) :=
    ⟨fun a b h1 h2 => absurd h2 (not_lt.mpr (le_of_lt h1))⟩
  apply List.eq_of_perm_of_sorted hperm ?_ htgt
  have hnd_tgt : (tgt.map (fun c => c.Timestamp)).Pairwise (· ≠ ·) := by
    rw [List.pairwise_map]
    exact htgt.imp (fun h => ne_of_gt h)
  have hnd_l : (l.map (fun c => c.Timestamp)).Pairwise (· ≠ ·) :=
    ((hperm.map (fun c => c.Timestamp)).pairwise_iff
      (fun h => Ne.symm h)).mpr hnd_tgt
  have hl' := hl.and (List.pairwise_map.mp hnd_l)
  exact hl'.imp (fun h => lt_of_le_of_ne h.1 (fun e => h.2 e.symm))

/-! ## Injectivity of the path codec, and the shape of a written journal -/

theorem encode_inj (k : Name) (r1 r2 : JournalFileType) (t1 n1 t2 n2 : Nat)
    (h : BuildJournalPathWithTSuffix k r1 (tSuffixOf t1 n1) =
         BuildJournalPathWithTSuffix k r2 (tSuffixOf t2 n2)) :
    r1 = r2 ∧ t1 = t2 := by
  have d1 : DecodeJournalPath (BuildJournalPathWithTSuffix k r1 (tSuffixOf t1 n1)) =
      some (BuildJournalPath k r1 t1 n1) := decode_encode k r1 t1 n1
  have d2 : DecodeJournalPath (BuildJournalPathWithTSuffix k r2 (tSuffixOf t2 n2)) =
      some (BuildJournalPath k r2 t2 n2) := decode_encode k r2 t2 n2
  rw [h, d2] at d1
  have e := Option.some.inj d1
  constructor
  · have he := congrArg JournalPathInfo.TypeOf e
    simpa [BuildJournalPath] using he.symm
  · have he := congrArg JournalPathInfo.Timestamp e
    simp [BuildJournalPath] at he
    omega

theorem chunkPath_inj (cfg : GroupConfig) (k : Name) (r1 r2 : JournalFileType)
    (t1 n1 t2 n2 : Nat)
    (h : cfg.pathPfx ++ BuildJournalPathWithTSuffix k r1 (tSuffixOf t1 n1) ++ cfg.pathSfx =
         cfg.pathPfx ++ BuildJournalPathWithTSuffix k r2 (tSuffixOf t2 n2) ++ cfg.pathSfx) :
    r1 = r2 ∧ t1 = t2 :=
  encode_inj k r1 r2 t1 n1 t2 n2 (List.append_cancel_left (List.append_cancel_right h))

/-- The head chunk a run of writes leaves at the newest end (id `i`,
timestamp/nonce pair `tn`): `Head` role, refcount 2 (anchor + writer),
`Timestamp` left at zero by the write path. -/
def headChunkOf (cfg : GroupConfig) (k : Name) (i : Nat) (tn : Nat × Nat) :
    FileJournalChunk :=
  { id := i,
    Path := cfg.pathPfx ++
      BuildJournalPathWithTSuffix k JournalFileType.Head (tSuffixOf tn.1 tn.2) ++
      cfg.pathSfx,
    ftype := JournalFileType.Head,
    TSuffix := tSuffixOf tn.1 tn.2, Timestamp := 0,
    UniqueId := BuildJournalPathWithTSuffix k JournalFileType.Head (tSuffixOf tn.1 tn.2),
    refcount := 2 }

/-- A sealed chunk after roll-over: renamed to its `Rest` path, refcount back
to the single list-anchor reference. -/
def restChunkOf (cfg : GroupConfig) (k : Name) (i : Nat) (tn : Nat × Nat) :
    FileJournalChunk :=
  { id := i,
    Path := cfg.pathPfx ++
      BuildJournalPathWithTSuffix k JournalFileType.Rest (tSuffixOf tn.1 tn.2) ++
      cfg.pathSfx,
    ftype := JournalFileType.Rest,
    TSuffix := tSuffixOf tn.1 tn.2, Timestamp := 0,
    UniqueId := BuildJournalPathWithTSuffix k JournalFileType.Head (tSuffixOf tn.1 tn.2),
    refcount := 1 }

/-- The sealed (oldest-first) part of a written journal's chunk list. -/
def restChunks (cfg : GroupConfig) (k : Name) : Nat → List (Nat × Nat) →
    List FileJournalChunk
  | _, [] => []
  | i, tn :: tns => restChunkOf cfg k i tn :: restChunks cfg k (i + 1) tns

theorem restChunks_length (cfg : GroupConfig) (k : Name) :
    ∀ (tns : List (Nat × Nat)) (i : Nat), (restChunks cfg k i tns).length = tns.length := by
  intro tns
  induction tns with
  | nil => intro i; rfl
  | cons tn rest ih => intro i; simp [restChunks, ih]

theorem restChunks_snoc (cfg : GroupConfig) (k : Name) :
    ∀ (front : List (Nat × Nat)) (i : Nat) (tn : Nat × Nat),
      restChunks cfg k i (front ++ [tn]) =
        restChunks cfg k i front ++ [restChunkOf cfg k (i + front.length) tn] := by
  intro front
  induction front with
  | nil => intro i tn; simp [restChunks]
  | cons a rest ih =>
      intro i tn
      simp only [List.cons_append, restChunks]
      simp only [List.append_eq]
      rw [ih (i + 1)]
      rw [show i + 1 + rest.length = i + (a :: rest).length from by
        simp only [List.length_cons]; omega]

theorem restChunks_id_lt (cfg : GroupConfig) (k : Name) :
    ∀ (tns : List (Nat × Nat)) (i : Nat) (c : FileJournalChunk),
      c ∈ restChunks cfg k i tns → c.id < i + tns.length := by
  intro tns
  induction tns with
  | nil => intro i c hc; cases hc
  | cons tn rest ih =>
      intro i c hc
      rcases List.mem_cons.mp hc with h | h
      · rw [h]
        simp [restChunkOf]
      · have := ih (i + 1) c h
        simp only [List.length_cons]
        omega

theorem restChunks_path_mem (cfg : GroupConfig) (k : Name) :
    ∀ (tns : List (Nat × Nat)) (i : Nat) (c : FileJournalChunk),
      c ∈ restChunks cfg k i tns →
      ∃ tn ∈ tns, c.Path = cfg.pathPfx ++
        BuildJournalPathWithTSuffix k JournalFileType.Rest (tSuffixOf tn.1 tn.2) ++
        cfg.pathSfx := by
  intro tns
  induction tns with
  | nil => intro i c hc; cases hc
  | cons tn rest ih =>
      intro i c hc
      rcases List.mem_cons.mp hc with h | h
      · exact ⟨tn, by simp, by rw [h]; rfl⟩
      · obtain ⟨tn', htn', hp⟩ := ih (i + 1) c h
        exact ⟨tn', by simp [htn'], hp⟩

theorem fsGet_zip_none : ∀ (paths : List Name) (docs : List Bytes) (p : Name),
    (∀ q ∈ paths, q ≠ p) → fsGet (paths.zip docs) p = none
  | [], _, _, _ => rfl
  | _ :: _, [], _, _ => rfl
  | q :: ps, d :: ds, p, h => by
      simp only [List.zip_cons_cons, fsGet]
      rw [if_neg (h q (by simp))]
      exact fsGet_zip_none ps ds p (fun x hx => h x (by simp [hx]))

theorem map_rnKey_id (l : List (Name × Bytes)) (src dst : Name)
    (h : ∀ e ∈ l, e.1 ≠ src) : l.map (rnKey src dst) = l := by
  induction l with
  | nil => rfl
  | cons e r ih =>
      simp only [List.map_cons, rnKey]
      rw [if_neg (h e (by simp)), ih (fun x hx => h x (by simp [hx]))]

theorem freshHeadChunk_eq (cfg : GroupConfig) (env : Env) (j : FileJournal) :
    freshHeadChunk cfg env j = headChunkOf cfg j.key j.nextId (env.now, env.nonce) := rfl

theorem head_to_rest (cfg : GroupConfig) (k : Name) (i : Nat) (tn : Nat × Nat) :
    ({ headChunkOf cfg k i tn with
        ftype := JournalFileType.Rest,
        Path := restPathOf cfg k (headChunkOf cfg k i tn).TSuffix,
        refcount := (headChunkOf cfg k i tn).refcount - 1 } : FileJournalChunk) =
      restChunkOf cfg k i tn := by
  simp only [headChunkOf, restChunkOf, restPathOf]
  norm_num

/-- The state a non-empty run of writes leaves behind: the chunk list is the
head chunk (timestamps `ltn`) over the sealed chunks of `front` (oldest
first, ids `0..`), the writer sits on the head, the file table lists the
sealed files oldest-first with contents `dfront` followed by the head file
with contents `dlast`, and all timestamp pairs are strictly increasing. -/
def WriteInv (cfg : GroupConfig) (k : Name) (front : List (Nat × Nat)) (ltn : Nat × Nat)
    (dfront : List Bytes) (dlast : Bytes) (j : FileJournal)
    (fs : List (Name × Bytes)) : Prop :=
  j.key = k ∧
  j.chunks = headChunkOf cfg k front.length ltn :: (restChunks cfg k 0 front).reverse ∧
  j.writer = some front.length ∧
  j.nextId = front.length + 1 ∧
  dfront.length = front.length ∧
  fs = ((restChunks cfg k 0 front).map (fun c => c.Path)).zip dfront ++
       [((headChunkOf cfg k front.length ltn).Path, dlast)] ∧
  List.Pairwise (fun a b : Nat × Nat => a.1 < b.1) (front ++ [ltn])

theorem restZip_keys_ne (cfg : GroupConfig) (k : Name) (front : List (Nat × Nat))
    (dfront : List Bytes) (r : JournalFileType) (t n : Nat)
    (h : r = JournalFileType.Head ∨ (∀ tn ∈ front, tn.1 ≠ t)) :
    ∀ e ∈ ((restChunks cfg k 0 front).map (fun c => c.Path)).zip dfront,
      e.1 ≠ cfg.pathPfx ++ BuildJournalPathWithTSuffix k r (tSuffixOf t n) ++
        cfg.pathSfx := by
  intro e he hep
  have h1 : e.1 ∈ (restChunks cfg k 0 front).map (fun c => c.Path) :=
    (List.of_mem_zip he).1
  obtain ⟨c, hc, hcp⟩ := List.mem_map.mp h1
  obtain ⟨tn, htn, hpath⟩ := restChunks_path_mem cfg k front 0 c hc
  rw [← hcp, hpath] at hep
  have hinj := chunkPath_inj cfg k _ _ _ _ _ _ hep
  rcases h with h | h
  · rw [h] at hinj
    cases hinj.1
  · exact h tn htn hinj.2

theorem restZip_get_none (cfg : GroupConfig) (k : Name) (front : List (Nat × Nat))
    (dfront : List Bytes) (r : JournalFileType) (t n : Nat)
    (h : r = JournalFileType.Head ∨ (∀ tn ∈ front, tn.1 ≠ t)) :
    fsGet (((restChunks cfg k 0 front).map (fun c => c.Path)).zip dfront)
      (cfg.pathPfx ++ BuildJournalPathWithTSuffix k r (tSuffixOf t n) ++ cfg.pathSfx) =
      none :=
  fsGet_eq_none_of_not_mem _ _ (restZip_keys_ne cfg k front dfront r t n h)

/-- The first write on a fresh journal establishes the invariant. -/
theorem write_start (cfg : GroupConfig) (k : Name) (env : Env) (data : Bytes) :
    fjWrite cfg env (freshJournal k) ⟨[], []⟩ data =
      some (none,
        { key := k, chunks := [headChunkOf cfg k 0 (env.now, env.nonce)],
          writer := some 0, position := (data.length : Int), nextId := 1 },
        ⟨[((headChunkOf cfg k 0 (env.now, env.nonce)).Path, data)], []⟩) ∧
    WriteInv cfg k [] (env.now, env.nonce) [] data
      { key := k, chunks := [headChunkOf cfg k 0 (env.now, env.nonce)],
        writer := some 0, position := (data.length : Int), nextId := 1 }
      [((headChunkOf cfg k 0 (env.now, env.nonce)).Path, data)] := by
  constructor
  · exact write_first_spec cfg env (freshJournal k) [] data rfl rfl rfl
  · exact ⟨rfl, rfl, rfl, rfl, rfl, rfl, by simp⟩

/-- One `Write` call preserves the invariant: either the record fits (the
chunk list is unchanged and the head file grows) or the journal rolls over
(the old head is sealed and a fresh head holds exactly the new record). -/
theorem write_step (cfg : GroupConfig) (k : Name) (env : Env) (data : Bytes)
    (front : List (Nat × Nat)) (ltn : Nat × Nat) (dfront : List Bytes) (dlast : Bytes)
    (j : FileJournal) (fs : List (Name × Bytes))
    (hinv : WriteInv cfg k front ltn dfront dlast j fs)
    (hm1 : ∀ tn ∈ front, tn.1 < env.now) (hm2 : ltn.1 < env.now) :
    ∃ front' ltn' dfront' dlast' j' fs',
      fjWrite cfg env j ⟨fs, []⟩ data = some (none, j', ⟨fs', []⟩) ∧
      WriteInv cfg k front' ltn' dfront' dlast' j' fs' ∧
      dfront'.flatten ++ dlast' = dfront.flatten ++ dlast ++ data ∧
      ((front' = front ∧ ltn' = ltn) ∨
        (front' = front ++ [ltn] ∧ ltn' = (env.now, env.nonce))) := by
  obtain ⟨hkey, hch, hw, hnid, hdlen, hfs, hasc⟩ := hinv
  have hrlt : ∀ tn' ∈ front, tn'.1 < ltn.1 := by
    rw [List.pairwise_append] at hasc
    intro tn' htn'
    exact hasc.2.2 tn' htn' ltn (by simp)
  have hkeys_head : ∀ e ∈ ((restChunks cfg k 0 front).map (fun c => c.Path)).zip dfront,
      e.1 ≠ (headChunkOf cfg k front.length ltn).Path :=
    restZip_keys_ne cfg k front dfront JournalFileType.Head ltn.1 ltn.2 (Or.inl rfl)
  have hzipf_none : fsGet (((restChunks cfg k 0 front).map (fun c => c.Path)).zip dfront)
      (headChunkOf cfg k front.length ltn).Path = none :=
    fsGet_eq_none_of_not_mem _ _ hkeys_head
  have hfile : fsGet fs (headChunkOf cfg k front.length ltn).Path = some dlast := by
    rw [hfs, fsGet_append_none _ _ _ hzipf_none]
    simp [fsGet]
  by_cases hroll : cfg.maxSize - j.position < (data.length : Int)
  · -- the record does not fit: roll over first
    have hhp : fsGet fs (headPathOf cfg j.key env) = none := by
      rw [hkey]
      rw [show headPathOf cfg k env = cfg.pathPfx ++ BuildJournalPathWithTSuffix k
          JournalFileType.Head (tSuffixOf env.now env.nonce) ++ cfg.pathSfx from rfl]
      rw [hfs, fsGet_append_none _ _ _ (restZip_get_none cfg k front dfront
        JournalFileType.Head env.now env.nonce (Or.inl rfl))]
      have hne : (headChunkOf cfg k front.length ltn).Path ≠ cfg.pathPfx ++
          BuildJournalPathWithTSuffix k JournalFileType.Head
            (tSuffixOf env.now env.nonce) ++ cfg.pathSfx := by
        intro he
        have hinj := chunkPath_inj cfg k JournalFileType.Head JournalFileType.Head
          ltn.1 ltn.2 env.now env.nonce he
        exact absurd hinj.2 (Nat.ne_of_lt hm2)
      simp only [fsGet]
      rw [if_neg hne]
    have hrp : fsGet fs
        (restPathOf cfg j.key (headChunkOf cfg k front.length ltn).TSuffix) = none := by
      rw [hkey]
      rw [show restPathOf cfg k (headChunkOf cfg k front.length ltn).TSuffix =
          cfg.pathPfx ++ BuildJournalPathWithTSuffix k JournalFileType.Rest
            (tSuffixOf ltn.1 ltn.2) ++ cfg.pathSfx from rfl]
      rw [hfs, fsGet_append_none _ _ _ (restZip_get_none cfg k front dfront
        JournalFileType.Rest ltn.1 ltn.2
        (Or.inr (fun tn htn => Nat.ne_of_lt (hrlt tn htn))))]
      have hne2 : (headChunkOf cfg k front.length ltn).Path ≠ cfg.pathPfx ++
          BuildJournalPathWithTSuffix k JournalFileType.Rest
            (tSuffixOf ltn.1 ltn.2) ++ cfg.pathSfx := by
        intro he
        have hinj := chunkPath_inj cfg k JournalFileType.Head JournalFileType.Rest
          ltn.1 ltn.2 ltn.1 ltn.2 he
        cases hinj.1
      simp only [fsGet]
      rw [if_neg hne2]
    have hlt : ∀ c ∈ j.chunks, c.id < j.nextId := by
      rw [hch, hnid]
      intro c hc
      rcases List.mem_cons.mp hc with h | h
      · rw [h]; simp [headChunkOf]
      · have := restChunks_id_lt cfg k front 0 c (List.mem_reverse.mp h)
        omega
    have htr : ∀ c ∈ (restChunks cfg k 0 front).reverse,
        c.id ≠ (headChunkOf cfg k front.length ltn).id := by
      intro c hc
      have := restChunks_id_lt cfg k front 0 c (List.mem_reverse.mp hc)
      simp only [headChunkOf]
      omega
    have hspec := write_rollover_spec cfg env j fs (headChunkOf cfg k front.length ltn)
      ((restChunks cfg k 0 front).reverse) dlast data front.length hch hw hlt htr
      (le_refl _) hfile hhp hrp hroll
    refine ⟨front ++ [ltn], (env.now, env.nonce), dfront ++ [dlast], data, _, _,
      hspec, ⟨?_, ?_, ?_, ?_, ?_, ?_, ?_⟩, by simp, Or.inr ⟨rfl, rfl⟩⟩
    · exact hkey
    · dsimp only []
      rw [freshHeadChunk_eq, hkey, hnid]
      rw [head_to_rest]
      rw [restChunks_snoc]
      rw [show (0 : Nat) + front.length = front.length from by omega]
      rw [List.reverse_append, List.reverse_singleton, List.singleton_append]
      rw [show (front ++ [ltn]).length = front.length + 1 from by simp]
    · dsimp only []
      rw [hnid]
      simp
    · dsimp only []
      rw [hnid]
      simp
    · simp [hdlen]
    · dsimp only []
      rw [hkey, hfs]
      rw [List.map_append]
      rw [map_rnKey_id _ _ _ hkeys_head]
      rw [show List.map (rnKey (headChunkOf cfg k front.length ltn).Path
          (restPathOf cfg k (headChunkOf cfg k front.length ltn).TSuffix))
          [((headChunkOf cfg k front.length ltn).Path, dlast)] =
          [((restChunkOf cfg k front.length ltn).Path, dlast)] from by
        simp [rnKey, restPathOf, restChunkOf, headChunkOf]]
      rw [restChunks_snoc]
      rw [show (0 : Nat) + front.length = front.length from by omega]
      rw [List.map_append]
      rw [List.zip_append (by simp [restChunks_length, hdlen])]
      rw [show (front ++ [ltn]).length = front.length + 1 from by simp]
      simp only [List.map_cons, List.map_nil, List.zip_cons_cons, List.zip_nil_right]
      rfl
    · rw [List.pairwise_append]
      refine ⟨hasc, by simp, ?_⟩
      intro a ha b hb
      simp only [List.mem_singleton] at hb
      rw [hb]
      rcases List.mem_append.mp ha with h | h
      · exact hm1 a h
      · simp only [List.mem_singleton] at h
        rw [h]
        exact hm2
  · -- the record fits: append in place
    have hspec := write_fits_spec cfg env j fs (headChunkOf cfg k front.length ltn)
      ((restChunks cfg k 0 front).reverse) dlast data hch hw hfile hroll
    refine ⟨front, ltn, dfront, dlast ++ data, _, _, hspec,
      ⟨hkey, hch, hw, hnid, hdlen, ?_, hasc⟩, by simp, Or.inl ⟨rfl, rfl⟩⟩
    rw [hfs]
    rw [fsSet_append_last _ _ _ _ hzipf_none]

/-- Running a whole trace of writes (with strictly increasing clocks)
preserves the invariant and accumulates exactly the written bytes. -/
theorem runWrites_inv (cfg : GroupConfig) (k : Name) :
    ∀ (trace : List (Env × Bytes)) (front : List (Nat × Nat)) (ltn : Nat × Nat)
      (dfront : List Bytes) (dlast : Bytes) (j : FileJournal)
      (fs : List (Name × Bytes)),
      WriteInv cfg k front ltn dfront dlast j fs →
      List.Pairwise (fun a b : Env × Bytes => a.1.now < b.1.now) trace →
      (∀ tn ∈ front, ∀ e ∈ trace, tn.1 < e.1.now) →
      (∀ e ∈ trace, ltn.1 < e.1.now) →
      ∃ front' ltn' dfront' dlast' j' fs',
        runWrites cfg trace j ⟨fs, []⟩ = some (none, j', ⟨fs', []⟩) ∧
        WriteInv cfg k front' ltn' dfront' dlast' j' fs' ∧
        dfront'.flatten ++ dlast' =
          (dfront.flatten ++ dlast) ++ (trace.map (fun ed => ed.2)).flatten := by
  intro trace
  induction trace with
  | nil =>
      intro front ltn dfront dlast j fs hinv _ _ _
      exact ⟨front, ltn, dfront, dlast, j, fs, rfl, hinv, by simp⟩
  | cons ed rest ih =>
      obtain ⟨env, data⟩ := ed
      intro front ltn dfront dlast j fs hinv hpw hf hl
      obtain ⟨front1, ltn1, dfront1, dlast1, j1, fs1, heq, hinv1, hflat1, hcase⟩ :=
        write_step cfg k env data front ltn dfront dlast j fs hinv
          (fun tn htn => hf tn htn (env, data) (by simp)) (hl (env, data) (by simp))
      simp only [runWrites]
      rw [heq]
      have hmono1 : ∀ tn ∈ front1, ∀ e ∈ rest, tn.1 < e.1.now := by
        intro tn htn e he
        rcases hcase with ⟨hfr, _⟩ | ⟨hfr, _⟩
        · rw [hfr] at htn
          exact hf tn htn e (by simp [he])
        · rw [hfr] at htn
          rcases List.mem_append.mp htn with h | h
          · exact hf tn h e (by simp [he])
          · simp only [List.mem_singleton] at h
            rw [h]
            exact hl e (by simp [he])
      have hltn1 : ∀ e ∈ rest, ltn1.1 < e.1.now := by
        intro e he
        rcases hcase with ⟨_, hl1⟩ | ⟨_, hl1⟩
        · rw [hl1]
          exact hl e (by simp [he])
        · rw [hl1]
          exact (List.pairwise_cons.mp hpw).1 e he
      obtain ⟨front2, ltn2, dfront2, dlast2, j2, fs2, heq2, hinv2, hflat2⟩ :=
        ih front1 ltn1 dfront1 dlast1 j1 fs1 hinv1 (List.pairwise_cons.mp hpw).2
          hmono1 hltn1
      refine ⟨front2, ltn2, dfront2, dlast2, j2, fs2, heq2, hinv2, ?_⟩
      rw [hflat2, hflat1]
      simp [List.append_assoc]

/-! ## The startup scan on a written directory -/

theorem pathSplit_no_slash (p : Name) (h : p.contains '/' = false) :
    pathSplit p = ([], p) := by
  induction p with
  | nil => rfl
  | cons c rest ih =>
      simp only [List.contains_cons, Bool.or_eq_false_iff] at h
      have hc : c ≠ '/' := by
        intro he
        rw [he] at h
        simp at h
      rw [pathSplit]
      rw [ih h.2]
      rw [if_pos ⟨rfl, by simpa using h.2, hc⟩]

theorem hasSfx_append (a sfx : Name) : hasSfx (a ++ sfx) sfx = true := by
  simp [hasSfx, List.isSuffixOf_iff_suffix]

/-- A chunk as the startup scan reconstructs it from a decoded path: role and
timestamp come from the codec, the id from the scan's allocator, refcount 1. -/
def scanChunkOf (cfg : GroupConfig) (k : Name) (i : Nat) (r : JournalFileType)
    (tn : Nat × Nat) : FileJournalChunk :=
  { id := i,
    Path := cfg.pathPfx ++ BuildJournalPathWithTSuffix k r (tSuffixOf tn.1 tn.2) ++
      cfg.pathSfx,
    ftype := r, TSuffix := tSuffixOf tn.1 tn.2, Timestamp := (tn.1 : Int),
    UniqueId := BuildJournalPathWithTSuffix k r (tSuffixOf tn.1 tn.2), refcount := 1 }

/-- The full path of a role/timestamp pair, as the scan sees it on disk. -/
def rolePathOf (cfg : GroupConfig) (k : Name)
    (rtn : JournalFileType × (Nat × Nat)) : Name :=
  cfg.pathPfx ++ BuildJournalPathWithTSuffix k rtn.1 (tSuffixOf rtn.2.1 rtn.2.2) ++
    cfg.pathSfx

def roleChunks (cfg : GroupConfig) (k : Name) : Nat →
    List (JournalFileType × (Nat × Nat)) → List FileJournalChunk
  | _, [] => []
  | i, rtn :: rest => scanChunkOf cfg k i rtn.1 rtn.2 :: roleChunks cfg k (i + 1) rest

theorem scanOne_eq (cfg : GroupConfig) (k : Name) (r : JournalFileType) (tn : Nat × Nat)
    (acc : ScanAcc) :
    scanOne cfg.pathPfx cfg.pathSfx cfg.pathPfx acc
      (cfg.pathPfx ++ BuildJournalPathWithTSuffix k r (tSuffixOf tn.1 tn.2) ++
        cfg.pathSfx) =
      some { journals := scanStore acc.journals k
               { (match scanLookup acc.journals k with
                  | some jp => jp
                  | none => freshJournal k) with
                 chunks := (match scanLookup acc.journals k with
                  | some jp => jp
                  | none => freshJournal k).chunks ++ [scanChunkOf cfg k acc.nextId r tn] }
             nextId := acc.nextId + 1
             warnings := acc.warnings } := by
  unfold scanOne
  dsimp only []
  rw [if_neg (not_not_intro (hasSfx_append _ _))]
  rw [if_neg (show ¬ cfg.pathPfx.length >
      ((cfg.pathPfx ++ BuildJournalPathWithTSuffix k r (tSuffixOf tn.1 tn.2)) ++
        cfg.pathSfx).length - cfg.pathSfx.length from by
    simp only [List.length_append]
    omega)]
  rw [show ((cfg.pathPfx ++ BuildJournalPathWithTSuffix k r (tSuffixOf tn.1 tn.2)) ++
      cfg.pathSfx).length - cfg.pathSfx.length =
      (cfg.pathPfx ++ BuildJournalPathWithTSuffix k r (tSuffixOf tn.1 tn.2)).length from by
    simp only [List.length_append]
    omega]
  rw [List.take_left, List.drop_left]
  rw [show DecodeJournalPath (BuildJournalPathWithTSuffix k r (tSuffixOf tn.1 tn.2)) =
      some (BuildJournalPath k r tn.1 tn.2) from decode_encode k r tn.1 tn.2]
  dsimp only []
  simp only [BuildJournalPath]
  rfl

theorem scanOne_first (cfg : GroupConfig) (k : Name) (r : JournalFileType)
    (tn : Nat × Nat) (i w : Nat) :
    scanOne cfg.pathPfx cfg.pathSfx cfg.pathPfx ⟨[], i, w⟩
      (cfg.pathPfx ++ BuildJournalPathWithTSuffix k r (tSuffixOf tn.1 tn.2) ++
        cfg.pathSfx) =
      some ⟨[(k, ⟨k, [scanChunkOf cfg k i r tn], none, 0, 0⟩)], i + 1, w⟩ := by
  rw [scanOne_eq]
  simp [scanLookup, scanStore, freshJournal]

theorem scanOne_next (cfg : GroupConfig) (k : Name) (r : JournalFileType)
    (tn : Nat × Nat) (i w : Nat) (cs : List FileJournalChunk) :
    scanOne cfg.pathPfx cfg.pathSfx cfg.pathPfx ⟨[(k, ⟨k, cs, none, 0, 0⟩)], i, w⟩
      (cfg.pathPfx ++ BuildJournalPathWithTSuffix k r (tSuffixOf tn.1 tn.2) ++
        cfg.pathSfx) =
      some ⟨[(k, ⟨k, cs ++ [scanChunkOf cfg k i r tn], none, 0, 0⟩)], i + 1, w⟩ := by
  rw [scanOne_eq]
  simp [scanLookup, scanStore]

theorem scanFold_next (cfg : GroupConfig) (k : Name) :
    ∀ (rs : List (JournalFileType × (Nat × Nat))) (i w : Nat)
      (cs : List FileJournalChunk),
      scanFold cfg.pathPfx cfg.pathSfx cfg.pathPfx ⟨[(k, ⟨k, cs, none, 0, 0⟩)], i, w⟩
        (rs.map (rolePathOf cfg k)) =
        some ⟨[(k, ⟨k, cs ++ roleChunks cfg k i rs, none, 0, 0⟩)], i + rs.length, w⟩ := by
  intro rs
  induction rs with
  | nil =>
      intro i w cs
      simp [scanFold, roleChunks]
  | cons rtn rest ih =>
      intro i w cs
      simp only [List.map_cons, scanFold]
      rw [show rolePathOf cfg k rtn = cfg.pathPfx ++
        BuildJournalPathWithTSuffix k rtn.1 (tSuffixOf rtn.2.1 rtn.2.2) ++
        cfg.pathSfx from rfl]
      rw [scanOne_next cfg k rtn.1 rtn.2 i w cs]
      dsimp only []
      rw [ih (i + 1) w (cs ++ [scanChunkOf cfg k i rtn.1 rtn.2])]
      rw [show (cs ++ [scanChunkOf cfg k i rtn.1 rtn.2]) ++
          roleChunks cfg k (i + 1) rest = cs ++ roleChunks cfg k i (rtn :: rest) from by
        rw [List.append_assoc, List.singleton_append]
        rfl]
      rw [show i + 1 + rest.length = i + (rtn :: rest).length from by
        simp only [List.length_cons]
        omega]

theorem scanFold_all (cfg : GroupConfig) (k : Name)
    (r0 : JournalFileType × (Nat × Nat)) (rest : List (JournalFileType × (Nat × Nat))) :
    scanFold cfg.pathPfx cfg.pathSfx cfg.pathPfx ⟨[], 0, 0⟩
      ((r0 :: rest).map (rolePathOf cfg k)) =
      some ⟨[(k, ⟨k, roleChunks cfg k 0 (r0 :: rest), none, 0, 0⟩)],
        (r0 :: rest).length, 0⟩ := by
  simp only [List.map_cons, scanFold]
  rw [show rolePathOf cfg k r0 = cfg.pathPfx ++
    BuildJournalPathWithTSuffix k r0.1 (tSuffixOf r0.2.1 r0.2.2) ++
    cfg.pathSfx from rfl]
  rw [scanOne_first cfg k r0.1 r0.2 0 0]
  dsimp only []
  rw [scanFold_next cfg k rest 1 0 [scanChunkOf cfg k 0 r0.1 r0.2]]
  rw [show ([scanChunkOf cfg k 0 r0.1 r0.2] : List FileJournalChunk) ++
      roleChunks cfg k 1 rest = roleChunks cfg k 0 (r0 :: rest) from by
    rw [List.singleton_append]
    rfl]
  rw [show 1 + rest.length = (r0 :: rest).length from by
    simp only [List.length_cons]
    omega]

theorem roleChunks_snoc (cfg : GroupConfig) (k : Name) :
    ∀ (front : List (JournalFileType × (Nat × Nat))) (i : Nat)
      (rtn : JournalFileType × (Nat × Nat)),
      roleChunks cfg k i (front ++ [rtn]) =
        roleChunks cfg k i front ++ [scanChunkOf cfg k (i + front.length) rtn.1 rtn.2] := by
  intro front
  induction front with
  | nil => intro i rtn; simp [roleChunks]
  | cons a rest ih =>
      intro i rtn
      simp only [List.cons_append, roleChunks]
      simp only [List.append_eq]
      rw [ih (i + 1)]
      rw [show i + 1 + rest.length = i + (a :: rest).length from by
        simp only [List.length_cons]; omega]

theorem roleChunks_mem (cfg : GroupConfig) (k : Name) :
    ∀ (rs : List (JournalFileType × (Nat × Nat))) (i : Nat) (c : FileJournalChunk),
      c ∈ roleChunks cfg k i rs →
      ∃ rtn ∈ rs, ∃ j : Nat, c = scanChunkOf cfg k j rtn.1 rtn.2 := by
  intro rs
  induction rs with
  | nil => intro i c hc; cases hc
  | cons a rest ih =>
      intro i c hc
      rcases List.mem_cons.mp hc with h | h
      · exact ⟨a, by simp, i, h⟩
      · obtain ⟨rtn, hrtn, j, hj⟩ := ih (i + 1) c h
        exact ⟨rtn, by simp [hrtn], j, hj⟩

theorem roleChunks_pairwise (cfg : GroupConfig) (k : Name)
    (rs : List (JournalFileType × (Nat × Nat)))
    (h : List.Pairwise (fun a b => a.2.1 < b.2.1) rs) :
    ∀ i, List.Pairwise (fun u v => u.Timestamp < v.Timestamp) (roleChunks cfg k i rs) := by
  induction h with
  | nil => intro i; exact List.Pairwise.nil
  | @cons a rest ha hrest ih =>
      intro i
      rw [show roleChunks cfg k i (a :: rest) =
        scanChunkOf cfg k i a.1 a.2 :: roleChunks cfg k (i + 1) rest from rfl]
      rw [List.pairwise_cons]
      refine ⟨?_, ih (i + 1)⟩
      intro c hc
      obtain ⟨rtn, hrtn, jx, hj⟩ := roleChunks_mem cfg k rest (i + 1) c hc
      rw [hj]
      have := ha rtn hrtn
      simp only [scanChunkOf]
      exact_mod_cast this

theorem roleChunks_paths (cfg : GroupConfig) (k : Name) :
    ∀ (rs : List (JournalFileType × (Nat × Nat))) (i : Nat),
      (roleChunks cfg k i rs).map (fun c => c.Path) = rs.map (rolePathOf cfg k) := by
  intro rs
  induction rs with
  | nil => intro i; rfl
  | cons a rest ih =>
      intro i
      simp only [roleChunks, List.map_cons]
      rw [ih (i + 1)]
      rfl

theorem findChunkHead_no_head :
    ∀ (l : List FileJournalChunk) (acc : Option FileJournalChunk),
      (∀ c ∈ l, c.ftype ≠ JournalFileType.Head) → findChunkHead l acc = Except.ok acc := by
  intro l
  induction l with
  | nil => intro acc _; rfl
  | cons c rest ih =>
      intro acc h
      simp only [findChunkHead]
      rw [if_neg (h c (by simp))]
      exact ih acc (fun x hx => h x (by simp [hx]))

theorem validate_target (c : FileJournalChunk) (rest : List FileJournalChunk)
    (hc : c.ftype = JournalFileType.Head)
    (hrest : ∀ x ∈ rest, x.ftype ≠ JournalFileType.Head) :
    validateChunks (c :: rest) = Except.ok () := by
  unfold validateChunks
  rw [show findChunkHead (c :: rest) none = Except.ok (some c) from by
    simp only [findChunkHead]
    rw [if_pos hc]
    exact findChunkHead_no_head rest (some c) hrest]
  dsimp only []
  rw [if_pos (by simp)]

theorem installWriters_one (fs : List (Name × Bytes)) (k : Name) (j : FileJournal)
    (c : FileJournalChunk) (rest : List FileJournalChunk) (v : Bytes)
    (hch : j.chunks = c :: rest) (hget : fsGet fs c.Path = some v) :
    installWriters ⟨fs, []⟩ [(k, j)] =
      some (Except.ok ([(k, { j with
        chunks := { c with refcount := c.refcount + 1 } :: rest,
        writer := some c.id, position := (v.length : Int) })], ⟨fs, []⟩)) := by
  unfold installWriters
  rw [hch]
  dsimp only [popFault]
  rw [if_neg (by simp), hget]
  dsimp only []
  rw [show installWriters ⟨fs, []⟩ ([] : List (Name × FileJournal)) =
    some (Except.ok ([], ⟨fs, []⟩)) from rfl]

theorem mapM_fsGet (fs : List (Name × Bytes)) (cl : List FileJournalChunk)
    (docs : List Bytes)
    (h : List.Forall₂ (fun c d => fsGet fs c.Path = some d) cl docs) :
    cl.mapM (fun c => fsGet fs c.Path) = some docs := by
  induction h with
  | nil => rfl
  | cons h1 _ ih =>
      rw [List.mapM_cons, h1, ih]
      rfl

theorem fsGet_zip_forall2 :
    ∀ (paths : List Name) (docs : List Bytes) (pre suffix : List (Name × Bytes)),
      paths.length = docs.length → paths.Nodup →
      (∀ q ∈ paths, ∀ e ∈ pre, e.1 ≠ q) →
      List.Forall₂ (fun p d => fsGet (pre ++ (paths.zip docs ++ suffix)) p = some d)
        paths docs
  | [], [], _, _, _, _, _ => List.Forall₂.nil
  | [], _ :: _, _, _, hlen, _, _ => by simp at hlen
  | _ :: _, [], _, _, hlen, _, _ => by simp at hlen
  | p :: ps, d :: ds, pre, suffix, hlen, hnd, hpre => by
      have hfs : (pre ++ [(p, d)]) ++ (ps.zip ds ++ suffix) =
          pre ++ ((p :: ps).zip (d :: ds) ++ suffix) := by
        simp [List.zip_cons_cons, List.append_assoc]
      constructor
      · simp only [List.zip_cons_cons, List.cons_append]
        rw [fsGet_append_none _ _ _ (fsGet_eq_none_of_not_mem _ _
          (fun e he => hpre p (by simp) e he))]
        simp only [fsGet]
        rw [if_pos trivial]
      · have hnd' := (List.nodup_cons.mp hnd)
        have ih := fsGet_zip_forall2 ps ds (pre ++ [(p, d)]) suffix
          (by simpa using hlen) hnd'.2
          (fun q hq e he => by
            rcases List.mem_append.mp he with h | h
            · exact hpre q (by simp [hq]) e h
            · simp only [List.mem_singleton] at h
              rw [h]
              intro hpq
              exact hnd'.1 (by rw [← hpq] at hq; exact hq))
        rw [hfs] at ih
        exact ih

theorem forall2_chunks_of_paths (fs : List (Name × Bytes))
    (cl : List FileJournalChunk) (docs : List Bytes)
    (h : List.Forall₂ (fun p d => fsGet fs p = some d)
      (cl.map (fun c => c.Path)) docs) :
    List.Forall₂ (fun c d => fsGet fs c.Path = some d) cl docs :=
  List.forall₂_map_left_iff.mp h

theorem restChunks_paths (cfg : GroupConfig) (k : Name) :
    ∀ (tns : List (Nat × Nat)) (i : Nat),
      (restChunks cfg k i tns).map (fun c => c.Path) =
        tns.map (fun tn => cfg.pathPfx ++
          BuildJournalPathWithTSuffix k JournalFileType.Rest (tSuffixOf tn.1 tn.2) ++
          cfg.pathSfx) := by
  intro tns
  induction tns with
  | nil => intro i; rfl
  | cons tn rest ih =>
      intro i
      simp only [restChunks, List.map_cons]
      rw [ih (i + 1)]
      rfl

theorem sort_to_desc (raw : List FileJournalChunk)
    (hasc : List.Pairwise (fun u v => u.Timestamp < v.Timestamp) raw) :
    sortChunksByTimestamp raw = raw.reverse := by
  apply eq_of_perm_sorted_strict
  · exact (sortChunks_spec raw).2.trans (List.reverse_perm raw).symm
  · exact (sortChunks_spec raw).1
  · exact List.pairwise_reverse.mpr hasc

theorem sortAndValidate_one (k : Name) (jRaw : FileJournal) (tgt : List FileJournalChunk)
    (hsort : sortChunksByTimestamp jRaw.chunks = tgt)
    (hval : validateChunks tgt = Except.ok ()) :
    sortAndValidate [(k, jRaw)] = Except.ok [(k, { jRaw with chunks := tgt })] := by
  unfold sortAndValidate
  dsimp only []
  rw [hsort, hval]
  dsimp only []
  rw [show sortAndValidate [] = Except.ok [] from rfl]

theorem scanFold_all' (cfg : GroupConfig) (k : Name)
    (rs : List (JournalFileType × (Nat × Nat))) (hne : rs ≠ []) :
    scanFold cfg.pathPfx cfg.pathSfx cfg.pathPfx ⟨[], 0, 0⟩ (rs.map (rolePathOf cfg k)) =
      some ⟨[(k, ⟨k, roleChunks cfg k 0 rs, none, 0, 0⟩)], rs.length, 0⟩ := by
  match rs, hne with
  | r0 :: rest, _ => exact scanFold_all cfg k r0 rest

theorem map_fst_zip' : ∀ (l1 : List Name) (l2 : List Bytes), l1.length = l2.length →
    (l1.zip l2).map (fun e => e.1) = l1
  | [], [], _ => rfl
  | [], _ :: _, h => by simp at h
  | _ :: _, [], h => by simp at h
  | p :: ps, d :: ds, h => by
      simp only [List.zip_cons_cons, List.map_cons]
      rw [map_fst_zip' ps ds (by simpa using h)]

/-- Re-opening a group over the file table a run of writes left behind
recovers the journal and its contents: the scan decodes every file, the sort
re-establishes newest-first order, validation passes, a writer is installed
on the head, and concatenating the chunks oldest-to-newest returns every
written byte. -/
theorem scan_recovers (cfg : GroupConfig) (k : Name) (front' : List (Nat × Nat))
    (ltn' : Nat × Nat) (dfront' : List Bytes) (dlast' : Bytes)
    (fs' : List (Name × Bytes))
    (hflat : cfg.pathPfx.contains '/' = false)
    (hdlen : dfront'.length = front'.length)
    (hfs : fs' = ((restChunks cfg k 0 front').map (fun c => c.Path)).zip dfront' ++
       [((headChunkOf cfg k front'.length ltn').Path, dlast')])
    (hasc : List.Pairwise (fun a b : Nat × Nat => a.1 < b.1) (front' ++ [ltn'])) :
    ∃ js d2,
      getJournalGroupScan cfg (fs'.map (fun e => e.1)) ⟨fs', []⟩ =
        some (Except.ok (js, d2)) ∧
      concatChunks (getFileJournal js k) d2 = some (dfront'.flatten ++ dlast') := by
  have hpa := List.pairwise_append.mp hasc
  have hascf : List.Pairwise (fun a b : Nat × Nat => a.1 < b.1) front' := hpa.1
  have hcross : ∀ tn ∈ front', tn.1 < ltn'.1 := fun tn htn => hpa.2.2 tn htn ltn' (by simp)
  have hentries : fs'.map (fun e => e.1) =
      (front'.map (fun tn => (JournalFileType.Rest, tn)) ++
        [(JournalFileType.Head, ltn')]).map (rolePathOf cfg k) := by
    rw [hfs, List.map_append, List.map_append, List.map_map]
    rw [map_fst_zip' _ _ (by simp [restChunks_length, hdlen])]
    rw [restChunks_paths cfg k front' 0]
    rfl
  have hscan : scanJournals cfg.pathPfx cfg.pathSfx (fs'.map (fun e => e.1)) =
      some (sortAndValidate [(k, ⟨k, roleChunks cfg k 0
        (front'.map (fun tn => (JournalFileType.Rest, tn)) ++
          [(JournalFileType.Head, ltn')]), none, 0, 0⟩)]) := by
    rw [hentries]
    unfold scanJournals
    rw [pathSplit_no_slash _ hflat]
    dsimp only []
    rw [scanFold_all' cfg k _ (by simp)]
  have hQ : List.Pairwise (fun a b : JournalFileType × (Nat × Nat) => a.2.1 < b.2.1)
      (front'.map (fun tn => (JournalFileType.Rest, tn)) ++
        [(JournalFileType.Head, ltn')]) := by
    rw [List.pairwise_append]
    refine ⟨?_, by simp, ?_⟩
    · rw [List.pairwise_map]
      exact hascf
    · intro a ha b hb
      simp only [List.mem_singleton] at hb
      obtain ⟨tn, htn, rfl⟩ := List.mem_map.mp ha
      rw [hb]
      exact hcross tn htn
  have htgt : sortChunksByTimestamp (roleChunks cfg k 0
      (front'.map (fun tn => (JournalFileType.Rest, tn)) ++
        [(JournalFileType.Head, ltn')])) =
      scanChunkOf cfg k front'.length JournalFileType.Head ltn' ::
        (roleChunks cfg k 0
          (front'.map (fun tn => (JournalFileType.Rest, tn)))).reverse := by
    rw [sort_to_desc _ (roleChunks_pairwise cfg k _ hQ 0)]
    rw [roleChunks_snoc]
    rw [List.reverse_append, List.reverse_singleton, List.singleton_append]
    rw [show (0 : Nat) +
      (front'.map (fun tn => (JournalFileType.Rest, tn))).length = front'.length from by
      simp]
  have hvalid : validateChunks (scanChunkOf cfg k front'.length JournalFileType.Head ltn' ::
      (roleChunks cfg k 0
        (front'.map (fun tn => (JournalFileType.Rest, tn)))).reverse) = Except.ok () := by
    apply validate_target
    · rfl
    · intro x hx
      obtain ⟨rtn, hrtn, jx, rfl⟩ := roleChunks_mem cfg k _ 0 x (List.mem_reverse.mp hx)
      obtain ⟨tn, htn, rfl⟩ := List.mem_map.mp hrtn
      simp [scanChunkOf]
  have hkeys_head : ∀ e ∈ ((restChunks cfg k 0 front').map (fun c => c.Path)).zip dfront',
      e.1 ≠ (headChunkOf cfg k front'.length ltn').Path :=
    restZip_keys_ne cfg k front' dfront' JournalFileType.Head ltn'.1 ltn'.2 (Or.inl rfl)
  have hzipf_none : fsGet (((restChunks cfg k 0 front').map (fun c => c.Path)).zip dfront')
      (headChunkOf cfg k front'.length ltn').Path = none :=
    fsGet_eq_none_of_not_mem _ _ hkeys_head
  have hgethead : fsGet fs' (headChunkOf cfg k front'.length ltn').Path = some dlast' := by
    rw [hfs, fsGet_append_none _ _ _ hzipf_none]
    simp [fsGet]
  have hnodup : ((restChunks cfg k 0 front').map (fun c => c.Path)).Nodup := by
    rw [restChunks_paths]
    exact List.pairwise_map.mpr (hascf.imp (fun hab heq =>
      absurd (chunkPath_inj cfg k _ _ _ _ _ _ heq).2 (Nat.ne_of_lt hab)))
  have h1 : List.Forall₂ (fun c d => fsGet fs' c.Path = some d)
      (roleChunks cfg k 0 (front'.map (fun tn => (JournalFileType.Rest, tn)))) dfront' := by
    apply forall2_chunks_of_paths
    rw [show (roleChunks cfg k 0
        (front'.map (fun tn => (JournalFileType.Rest, tn)))).map (fun c => c.Path) =
        (restChunks cfg k 0 front').map (fun c => c.Path) from by
      rw [roleChunks_paths, restChunks_paths, List.map_map]
      rfl]
    have hf2 := fsGet_zip_forall2 ((restChunks cfg k 0 front').map (fun c => c.Path))
      dfront' [] [((headChunkOf cfg k front'.length ltn').Path, dlast')]
      (by simp [restChunks_length, hdlen]) hnodup
      (fun q hq e he => absurd he (List.not_mem_nil e))
    rw [List.nil_append] at hf2
    rw [← hfs] at hf2
    exact hf2
  have hforall : List.Forall₂ (fun c d => fsGet fs' c.Path = some d)
      (roleChunks cfg k 0 (front'.map (fun tn => (JournalFileType.Rest, tn))) ++
        [{ scanChunkOf cfg k front'.length JournalFileType.Head ltn' with
           refcount := (scanChunkOf cfg k front'.length JournalFileType.Head ltn').refcount + 1 }])
      (dfront' ++ [dlast']) :=
    List.rel_append h1 (List.Forall₂.cons hgethead List.Forall₂.nil)
  have hinst := installWriters_one fs' k
    ⟨k, scanChunkOf cfg k front'.length JournalFileType.Head ltn' ::
      (roleChunks cfg k 0 (front'.map (fun tn => (JournalFileType.Rest, tn)))).reverse,
      none, 0, 0⟩
    (scanChunkOf cfg k front'.length JournalFileType.Head ltn')
    ((roleChunks cfg k 0 (front'.map (fun tn => (JournalFileType.Rest, tn)))).reverse)
    dlast' rfl hgethead
  refine ⟨[(k, { key := k, chunks := { scanChunkOf cfg k front'.length JournalFileType.Head ltn' with refcount := (scanChunkOf cfg k front'.length JournalFileType.Head ltn').refcount + 1 } :: (roleChunks cfg k 0 (front'.map (fun tn => (JournalFileType.Rest, tn)))).reverse, writer := some (scanChunkOf cfg k front'.length JournalFileType.Head ltn').id, position := (dlast'.length : Int), nextId := 0 })], ⟨fs', []⟩, ?_, ?_⟩
  · unfold getJournalGroupScan
    rw [hscan]
    rw [sortAndValidate_one k _ _ htgt hvalid]
    dsimp only []
    rw [hinst]
  · simp only [getFileJournal, scanLookup]
    rw [if_pos trivial]
    unfold concatChunks
    dsimp only []
    rw [List.reverse_cons, List.reverse_reverse]
    rw [mapM_fsGet fs' _ _ hforall]
    simp

/-- The full round trip of claim C1: run a trace of writes on a fresh journal
over an empty directory, dispose the journal (the group close), re-open a
group with the same prefix/suffix over the surviving directory, fetch the
journal for the key and concatenate its chunk contents oldest-to-newest. -/
def roundTrip (cfg : GroupConfig) (k : Name) (trace : List (Env × Bytes)) :
    Option Bytes :=
  match runWrites cfg trace (freshJournal k) ⟨[], []⟩ with
  | some (none, j1, d1) =>
      match fjDispose j1, getJournalGroupScan cfg (d1.files.map (fun e => e.1)) d1 with
      | (_, _), some (Except.ok (js, d2)) => concatChunks (getFileJournal js k) d2
      | _, _ => none
  | _ => none

/-- Claim C1: for every non-empty sequence of records written with strictly
increasing clocks (roll-overs happening wherever the size policy dictates),
disposing and re-opening the group with the same prefix and suffix recovers
the journal, and concatenating its chunk contents oldest-to-newest yields
exactly the written bytes in write order. -/
theorem C1_scan_roundtrip (cfg : GroupConfig) (k : Name) (trace : List (Env × Bytes))
    (hflat : cfg.pathPfx.contains '/' = false)
    (hne : trace ≠ [])
    (hmono : List.Pairwise (fun a b : Env × Bytes => a.1.now < b.1.now) trace) :
    roundTrip cfg k trace = some ((trace.map (fun ed => ed.2)).flatten) := by
  match trace, hne, hmono with
  | (env0, data0) :: rest, _, hmono =>
    have hpw := List.pairwise_cons.mp hmono
    obtain ⟨hw0, hinv0⟩ := write_start cfg k env0 data0
    obtain ⟨front', ltn', dfront', dlast', j', fs', heq, hinv, hflatten⟩ :=
      runWrites_inv cfg k rest [] (env0.now, env0.nonce) [] data0 _ _ hinv0 hpw.2
        (fun tn htn => absurd htn (List.not_mem_nil tn))
        (fun e he => hpw.1 e he)
    obtain ⟨hkey, hch, hww, hnid, hdlen, hfs, hasc⟩ := hinv
    obtain ⟨js, d2, hscan, hconcat⟩ :=
      scan_recovers cfg k front' ltn' dfront' dlast' fs' hflat hdlen hfs hasc
    unfold roundTrip
    rw [show runWrites cfg ((env0, data0) :: rest) (freshJournal k) ⟨[], []⟩ =
        runWrites cfg rest
          { key := k, chunks := [headChunkOf cfg k 0 (env0.now, env0.nonce)],
            writer := some 0, position := (data0.length : Int), nextId := 1 }
          ⟨[((headChunkOf cfg k 0 (env0.now, env0.nonce)).Path, data0)], []⟩ from by
      simp only [runWrites]
      rw [hw0]]
    rw [heq]
    dsimp only []
    rw [hscan]
    dsimp only []
    rw [hconcat, hflatten]
    simp

def c1Cfg : GroupConfig := ⟨['j', '.'], ['.', 'l'], 3⟩

def c1Trace : List (Env × Bytes) := [(⟨1, 0⟩, [1, 2]), (⟨2, 0⟩, [3, 4])]

/-- Witness for C1: two records written with `maxSize` 3 (the second write
rolls over into a fresh chunk); the re-opened group returns both records in
order. -/
theorem C1_witness :
    c1Cfg.pathPfx.contains '/' = false ∧ c1Trace ≠ [] ∧
    List.Pairwise (fun a b : Env × Bytes => a.1.now < b.1.now) c1Trace ∧
    roundTrip c1Cfg ['s'] c1Trace = some [1, 2, 3, 4] := by
  refine ⟨by decide, by decide, by decide, ?_⟩
  rw [C1_scan_roundtrip c1Cfg ['s'] c1Trace (by decide) (by decide) (by decide)]
  decide

end Journal
